import Mathlib

/-
Verification of ferry_cross.c, a multi-threaded ferry crossing simulation.

The program runs one ferry thread and five car threads (FERRY_CAPACITY = 5)
that communicate through four semaphores (sem_board, sem_full, sem_unboard,
sem_empty, all created with initial value 0), a mutex (car_count_mutex) and a
shared counter (cars_on_board).

Shallow embedding: each thread is a program counter ranging over the
locations of its loop body; the global state carries the counters, the
semaphore values (as natural numbers), the mutex owner, and ghost counters
that record the cumulative number of posts and waits on each semaphore and
the cumulative number of increments and decrements of cars_on_board.  Every
statement of the C code that touches shared state is one transition of the
`Step` relation; statements that touch no shared state (usleep, printf) are
locations of their own where that matters for a claim (the usleep held inside
the mutex, the "left the ferry" log line) and are otherwise folded into the
adjacent transition.  The wall-clock reads of get_relative_time_sec are
modelled by a monotone boolean timeUp that may flip to true at any moment;
each stop-condition check branches on it.  pthread_cancel only removes
threads at cancellation points and never writes shared state, so every
shared state reachable with cancellation is a prefix of an execution of this
model; the safety invariants proved here therefore cover the cancelled runs.
-/

/-- FERRY_CAPACITY from ferry_cross.c line 13. -/
def FERRY_CAPACITY : Nat := 5

/-- PROGRAM_RUNTIME from ferry_cross.c line 14, in seconds. -/
def PROGRAM_RUNTIME : ℚ := 60

/-- One line of output, either in the Ferry/system format or in the Car
format of print_status (ferry_cross.c lines 57-63). -/
inductive LogLine
  | ferryLine (t : ℚ) (msg : String)
  | carLine (t : ℚ) (id : Int) (msg : String)
deriving DecidableEq

/-- Model of print_status (ferry_cross.c lines 46-64).  The double
current_time is modelled as a rational; the function only compares it
against PROGRAM_RUNTIME.  Returns none when the call prints nothing. -/
def print_status (current_time : ℚ) (message : String) (car_num : Int) : Option LogLine :=
  if current_time > PROGRAM_RUNTIME ∧ car_num ≠ -99 then none
  else if car_num = -1 ∨ car_num = -99 then some (.ferryLine current_time message)
  else some (.carLine current_time car_num message)

/-- Outcomes of the resource-creation calls in main (ferry_cross.c lines
180-201): whether each of the four sem_open calls and each pthread_create
call succeeded. -/
structure SetupResults where
  semBoardOk : Bool
  semFullOk : Bool
  semUnboardOk : Bool
  semEmptyOk : Bool
  ferryOk : Bool
  carOk : Fin 5 → Bool

/-- Whether the setup code of main aborts via exit(EXIT_FAILURE).  Faithful
to ferry_cross.c lines 185-201: only sem_board is compared against
SEM_FAILED; the results of the other three sem_open calls are never
checked.  Both pthread_create results are checked. -/
def setupAborts (r : SetupResults) : Bool :=
  !r.semBoardOk || !r.ferryOk || !((List.finRange 5).all fun i => r.carOk i)

/-- Process exit code as a function of the setup outcomes, assuming the run
itself completes normally: 1 (EXIT_FAILURE) when the setup aborts, else 0
(ferry_cross.c line 232). -/
def mainExitCode (r : SetupResults) : Nat :=
  if setupAborts r then 1 else 0

/-- Locations of the car thread loop body (ferry_cross.c lines 114-160).
  loopTop       : top of while loop, stop-condition check (line 116)
  waitBoard     : sem_wait(sem_board) (line 120)
  lockBoard     : pthread_mutex_lock(&car_count_mutex) (line 123)
  boardSleep    : usleep inside the critical section (line 127)
  incCount      : cars_on_board++ and the "entered" log (lines 129-130)
  checkFull     : if (cars_on_board == FERRY_CAPACITY) sem_post(sem_full) (lines 133-135)
  unlockBoard   : pthread_mutex_unlock (line 136)
  waitUnboard   : sem_wait(sem_unboard) (line 140)
  leaveSleep    : usleep and the "left the ferry" log (lines 143-144)
  lockUnboard   : pthread_mutex_lock (line 147)
  decCount      : cars_on_board-- (line 148)
  checkEmpty    : if (cars_on_board == 0) sem_post(sem_empty) (lines 151-153)
  unlockUnboard : pthread_mutex_unlock and the return-phase usleep (lines 154-159)
  stopped       : the thread left its loop. -/
inductive CarPc
  | loopTop
  | waitBoard
  | lockBoard
  | boardSleep
  | incCount
  | checkFull
  | unlockBoard
  | waitUnboard
  | leaveSleep
  | lockUnboard
  | decCount
  | checkEmpty
  | unlockUnboard
  | stopped
deriving DecidableEq

/-- Locations of the ferry thread loop body (ferry_cross.c lines 68-104).
  top           : top of while loop, stop-condition check (line 74)
  postBoard i   : boarding loop, i of FERRY_CAPACITY sem_post(sem_board) done (lines 78-80)
  waitFull      : sem_wait(sem_full) (line 83)
  check2        : second stop-condition check (line 86)
  crossing      : the "leaves the dock" log and sleep(3) (lines 90-91)
  postUnboard i : the "arrives" log and unboarding posts, i of 5 done (lines 94-98)
  waitEmpty     : sem_wait(sem_empty) (line 101)
  fdone         : the thread left its loop. -/
inductive FerryPc
  | top
  | postBoard (i : Nat)
  | waitFull
  | check2
  | crossing
  | postUnboard (i : Nat)
  | waitEmpty
  | fdone
deriving DecidableEq

/-- Global state of the simulation.  count is cars_on_board, kept as an
integer exactly as the C int is; board, full, unboard, empty are the four
semaphore values; owner is the holder of car_count_mutex.  The p/w fields
are ghost history counters: pB/wB count the posts and completed waits of
sem_board, and likewise pF/wF for sem_full, pU/wU for sem_unboard, pE/wE
for sem_empty; inc and dec count the committed ++ and -- of cars_on_board. -/
structure St where
  ferry : FerryPc
  pc : Fin 5 → CarPc
  count : Int
  board : Nat
  full : Nat
  unboard : Nat
  empty : Nat
  owner : Option (Fin 5)
  timeUp : Bool
  pB : Nat
  wB : Nat
  pF : Nat
  wF : Nat
  pU : Nat
  wU : Nat
  pE : Nat
  wE : Nat
  inc : Nat
  dec : Nat

/-- Initial state: all semaphores opened with value 0 (ferry_cross.c lines
180-183), cars_on_board = 0 (line 28), mutex free, every thread at the top
of its loop. -/
def initSt : St where
  ferry := .top
  pc := fun _ => .loopTop
  count := 0
  board := 0
  full := 0
  unboard := 0
  empty := 0
  owner := none
  timeUp := false
  pB := 0
  wB := 0
  pF := 0
  wF := 0
  pU := 0
  wU := 0
  pE := 0
  wE := 0
  inc := 0
  dec := 0

/-- Cars that consumed a board permit but have not yet incremented the
counter. -/
def preInc : CarPc → Bool
  | .lockBoard | .boardSleep | .incCount => true
  | _ => false

/-- Cars whose increment has committed and whose decrement has not. -/
def aboard : CarPc → Bool
  | .checkFull | .unlockBoard | .waitUnboard => true
  | _ => false

/-- Cars that consumed an unboard permit but have not yet decremented the
counter. -/
def preDec : CarPc → Bool
  | .leaveSleep | .lockUnboard | .decCount => true
  | _ => false

/-- Locations at which a car holds car_count_mutex. -/
def inCS : CarPc → Bool
  | .boardSleep | .incCount | .checkFull | .unlockBoard
  | .decCount | .checkEmpty | .unlockUnboard => true
  | _ => false

/-- Number of cars whose program counter satisfies P. -/
def cnt (pc : Fin 5 → CarPc) (P : CarPc → Bool) : Nat :=
  Finset.sum Finset.univ fun j => if P (pc j) = true then 1 else 0

lemma cnt_update (pc : Fin 5 → CarPc) (i : Fin 5) (v : CarPc) (P : CarPc → Bool) :
    cnt (Function.update pc i v) P + (if P (pc i) = true then 1 else 0)
      = cnt pc P + (if P v = true then 1 else 0) := by
  have h : (fun j => if P (Function.update pc i v j) = true then 1 else 0)
      = Function.update (fun j => if P (pc j) = true then 1 else 0) i
          (if P v = true then 1 else 0) := by
    funext j
    rcases eq_or_ne j i with rfl | hj
    · simp
    · simp [Function.update_noteq hj]
  unfold cnt
  rw [h, Finset.sum_update_of_mem (Finset.mem_univ i),
    Finset.sum_eq_sum_diff_singleton_add (Finset.mem_univ i)
      (fun j => if P (pc j) = true then 1 else 0)]
  omega

lemma cnt_le_five (pc : Fin 5 → CarPc) (P : CarPc → Bool) : cnt pc P ≤ 5 := by
  unfold cnt
  calc Finset.sum Finset.univ (fun j => if P (pc j) = true then 1 else 0)
      ≤ Finset.sum Finset.univ (fun _ : Fin 5 => 1) :=
        Finset.sum_le_sum (fun j _ => by split <;> omega)
    _ = 5 := by simp

lemma cnt_eq_zero_iff (pc : Fin 5 → CarPc) (P : CarPc → Bool) :
    cnt pc P = 0 ↔ ∀ j, P (pc j) = false := by
  unfold cnt
  rw [Finset.sum_eq_zero_iff]
  constructor
  · intro h j
    have := h j (Finset.mem_univ j)
    by_cases hb : P (pc j) = true
    · simp [hb] at this
    · exact Bool.not_eq_true _ |>.mp hb
  · intro h j _
    simp [h j]

lemma one_le_cnt (pc : Fin 5 → CarPc) (P : CarPc → Bool) (j : Fin 5)
    (h : P (pc j) = true) : 1 ≤ cnt pc P := by
  unfold cnt
  have := Finset.single_le_sum
    (f := fun j => if P (pc j) = true then 1 else 0)
    (fun _ _ => Nat.zero_le _) (Finset.mem_univ j)
  simpa [h] using this

lemma cnt_le_four (pc : Fin 5 → CarPc) (P : CarPc → Bool) (j : Fin 5)
    (h : P (pc j) = false) : cnt pc P ≤ 4 := by
  unfold cnt
  rw [Finset.sum_eq_sum_diff_singleton_add (Finset.mem_univ j)
    (fun j => if P (pc j) = true then 1 else 0)]
  have h1 : (if P (pc j) = true then 1 else 0) = 0 := by simp [h]
  have h2 : Finset.sum (Finset.univ \ {j})
      (fun j => if P (pc j) = true then 1 else 0)
      ≤ Finset.sum (Finset.univ \ {j}) (fun _ : Fin 5 => 1) :=
    Finset.sum_le_sum (fun k _ => by split <;> omega)
  have h3 : Finset.sum (Finset.univ \ {j}) (fun _ : Fin 5 => 1) = 4 := by
    rw [Finset.sum_const, smul_eq_mul, mul_one,
      Finset.card_sdiff (Finset.subset_univ _)]
    simp
  omega

lemma all_of_cnt_five (pc : Fin 5 → CarPc) (P : CarPc → Bool)
    (h : cnt pc P = 5) (j : Fin 5) : P (pc j) = true := by
  by_contra hj
  have : P (pc j) = false := Bool.not_eq_true _ |>.mp hj
  have := cnt_le_four pc P j this
  omega

lemma cnt_disjoint (pc : Fin 5 → CarPc) (P Q : CarPc → Bool)
    (h : ∀ p, P p = true → Q p = false) : cnt pc P + cnt pc Q ≤ 5 := by
  unfold cnt
  rw [← Finset.sum_add_distrib]
  calc Finset.sum Finset.univ
        (fun j => (if P (pc j) = true then 1 else 0) + if Q (pc j) = true then 1 else 0)
      ≤ Finset.sum Finset.univ (fun _ : Fin 5 => 1) := by
        apply Finset.sum_le_sum
        intro j _
        by_cases hp : P (pc j) = true
        · simp [hp, h _ hp]
        · simp [hp]
          split <;> omega
    _ = 5 := by simp

/-- One atomic transition of the simulation.  Each constructor is one
shared-state access of ferry_cross.c; tick is the wall clock passing
PROGRAM_RUNTIME (monotone: it never goes back). -/
inductive Step : St → St → Prop
  | tick (s : St) (ht : s.timeUp = false) :
      Step s { s with timeUp := true }
  | ferryStopTop (s : St) (h : s.ferry = .top) (ht : s.timeUp = true) :
      Step s { s with ferry := .fdone }
  | ferryStartBoarding (s : St) (h : s.ferry = .top) (ht : s.timeUp = false) :
      Step s { s with ferry := .postBoard 0 }
  | ferryPostBoard (s : St) (i : Nat) (h : s.ferry = .postBoard i) (hi : i + 1 < 5) :
      Step s { s with ferry := .postBoard (i + 1), board := s.board + 1, pB := s.pB + 1 }
  | ferryPostBoardLast (s : St) (i : Nat) (h : s.ferry = .postBoard i) (hi : i + 1 = 5) :
      Step s { s with ferry := .waitFull, board := s.board + 1, pB := s.pB + 1 }
  | ferryFullWait (s : St) (h : s.ferry = .waitFull) (hf : 0 < s.full) :
      Step s { s with ferry := .check2, full := s.full - 1, wF := s.wF + 1 }
  | ferryStopCheck2 (s : St) (h : s.ferry = .check2) (ht : s.timeUp = true) :
      Step s { s with ferry := .fdone }
  | ferryDepart (s : St) (h : s.ferry = .check2) (ht : s.timeUp = false) :
      Step s { s with ferry := .crossing }
  | ferryArrive (s : St) (h : s.ferry = .crossing) :
      Step s { s with ferry := .postUnboard 0 }
  | ferryPostUnboard (s : St) (i : Nat) (h : s.ferry = .postUnboard i) (hi : i + 1 < 5) :
      Step s { s with ferry := .postUnboard (i + 1), unboard := s.unboard + 1, pU := s.pU + 1 }
  | ferryPostUnboardLast (s : St) (i : Nat) (h : s.ferry = .postUnboard i) (hi : i + 1 = 5) :
      Step s { s with ferry := .waitEmpty, unboard := s.unboard + 1, pU := s.pU + 1 }
  | ferryEmptyWait (s : St) (h : s.ferry = .waitEmpty) (he : 0 < s.empty) :
      Step s { s with ferry := .top, empty := s.empty - 1, wE := s.wE + 1 }
  | carStop (s : St) (i : Fin 5) (h : s.pc i = .loopTop) (ht : s.timeUp = true) :
      Step s { s with pc := Function.update s.pc i .stopped }
  | carStart (s : St) (i : Fin 5) (h : s.pc i = .loopTop) (ht : s.timeUp = false) :
      Step s { s with pc := Function.update s.pc i .waitBoard }
  | carBoardPermit (s : St) (i : Fin 5) (h : s.pc i = .waitBoard) (hb : 0 < s.board) :
      Step s { s with pc := Function.update s.pc i .lockBoard,
                      board := s.board - 1, wB := s.wB + 1 }
  | carLockB (s : St) (i : Fin 5) (h : s.pc i = .lockBoard) (ho : s.owner = none) :
      Step s { s with pc := Function.update s.pc i .boardSleep, owner := some i }
  | carSleepB (s : St) (i : Fin 5) (h : s.pc i = .boardSleep) :
      Step s { s with pc := Function.update s.pc i .incCount }
  | carInc (s : St) (i : Fin 5) (h : s.pc i = .incCount) :
      Step s { s with pc := Function.update s.pc i .checkFull,
                      count := s.count + 1, inc := s.inc + 1 }
  | carFullPost (s : St) (i : Fin 5) (h : s.pc i = .checkFull) (hc : s.count = 5) :
      Step s { s with pc := Function.update s.pc i .unlockBoard,
                      full := s.full + 1, pF := s.pF + 1 }
  | carFullSkip (s : St) (i : Fin 5) (h : s.pc i = .checkFull) (hc : s.count ≠ 5) :
      Step s { s with pc := Function.update s.pc i .unlockBoard }
  | carUnlockB (s : St) (i : Fin 5) (h : s.pc i = .unlockBoard) :
      Step s { s with pc := Function.update s.pc i .waitUnboard, owner := none }
  | carUnboardPermit (s : St) (i : Fin 5) (h : s.pc i = .waitUnboard) (hu : 0 < s.unboard) :
      Step s { s with pc := Function.update s.pc i .leaveSleep,
                      unboard := s.unboard - 1, wU := s.wU + 1 }
  | carLeave (s : St) (i : Fin 5) (h : s.pc i = .leaveSleep) :
      Step s { s with pc := Function.update s.pc i .lockUnboard }
  | carLockU (s : St) (i : Fin 5) (h : s.pc i = .lockUnboard) (ho : s.owner = none) :
      Step s { s with pc := Function.update s.pc i .decCount, owner := some i }
  | carDec (s : St) (i : Fin 5) (h : s.pc i = .decCount) :
      Step s { s with pc := Function.update s.pc i .checkEmpty,
                      count := s.count - 1, dec := s.dec + 1 }
  | carEmptyPost (s : St) (i : Fin 5) (h : s.pc i = .checkEmpty) (hc : s.count = 0) :
      Step s { s with pc := Function.update s.pc i .unlockUnboard,
                      empty := s.empty + 1, pE := s.pE + 1 }
  | carEmptySkip (s : St) (i : Fin 5) (h : s.pc i = .checkEmpty) (hc : s.count ≠ 0) :
      Step s { s with pc := Function.update s.pc i .unlockUnboard }
  | carUnlockU (s : St) (i : Fin 5) (h : s.pc i = .unlockUnboard) :
      Step s { s with pc := Function.update s.pc i .loopTop, owner := none }

/-- Reachable states of the simulation. -/
inductive Reach : St → Prop
  | refl : Reach initSt
  | step {s s' : St} (hs : Reach s) (st : Step s s') : Reach s'

/-- A scheduling decision: let time pass, run the ferry thread one step, or
run car i one step. -/
inductive Act
  | tick
  | fer
  | car (i : Fin 5)

/-- Executable one-step interpreter: runs the chosen thread for one atomic
transition when it is enabled.  Used only to build concrete reachable
states. -/
def runAct (s : St) : Act → Option St
  | .tick => if s.timeUp = false then some { s with timeUp := true } else none
  | .fer =>
    match s.ferry with
    | .top =>
      if s.timeUp = true then some { s with ferry := .fdone }
      else some { s with ferry := .postBoard 0 }
    | .postBoard i =>
      if i + 1 < 5 then
        some { s with ferry := .postBoard (i + 1), board := s.board + 1, pB := s.pB + 1 }
      else if i + 1 = 5 then
        some { s with ferry := .waitFull, board := s.board + 1, pB := s.pB + 1 }
      else none
    | .waitFull =>
      if 0 < s.full then
        some { s with ferry := .check2, full := s.full - 1, wF := s.wF + 1 }
      else none
    | .check2 =>
      if s.timeUp = true then some { s with ferry := .fdone }
      else some { s with ferry := .crossing }
    | .crossing => some { s with ferry := .postUnboard 0 }
    | .postUnboard i =>
      if i + 1 < 5 then
        some { s with ferry := .postUnboard (i + 1), unboard := s.unboard + 1, pU := s.pU + 1 }
      else if i + 1 = 5 then
        some { s with ferry := .waitEmpty, unboard := s.unboard + 1, pU := s.pU + 1 }
      else none
    | .waitEmpty =>
      if 0 < s.empty then
        some { s with ferry := .top, empty := s.empty - 1, wE := s.wE + 1 }
      else none
    | .fdone => none
  | .car i =>
    match s.pc i with
    | .loopTop =>
      if s.timeUp = true then some { s with pc := Function.update s.pc i .stopped }
      else some { s with pc := Function.update s.pc i .waitBoard }
    | .waitBoard =>
      if 0 < s.board then
        some { s with pc := Function.update s.pc i .lockBoard,
                      board := s.board - 1, wB := s.wB + 1 }
      else none
    | .lockBoard =>
      match s.owner with
      | none => some { s with pc := Function.update s.pc i .boardSleep, owner := some i }
      | some _ => none
    | .boardSleep => some { s with pc := Function.update s.pc i .incCount }
    | .incCount =>
      some { s with pc := Function.update s.pc i .checkFull,
                    count := s.count + 1, inc := s.inc + 1 }
    | .checkFull =>
      if s.count = 5 then
        some { s with pc := Function.update s.pc i .unlockBoard,
                      full := s.full + 1, pF := s.pF + 1 }
      else some { s with pc := Function.update s.pc i .unlockBoard }
    | .unlockBoard =>
      some { s with pc := Function.update s.pc i .waitUnboard, owner := none }
    | .waitUnboard =>
      if 0 < s.unboard then
        some { s with pc := Function.update s.pc i .leaveSleep,
                      unboard := s.unboard - 1, wU := s.wU + 1 }
      else none
    | .leaveSleep => some { s with pc := Function.update s.pc i .lockUnboard }
    | .lockUnboard =>
      match s.owner with
      | none => some { s with pc := Function.update s.pc i .decCount, owner := some i }
      | some _ => none
    | .decCount =>
      some { s with pc := Function.update s.pc i .checkEmpty,
                    count := s.count - 1, dec := s.dec + 1 }
    | .checkEmpty =>
      if s.count = 0 then
        some { s with pc := Function.update s.pc i .unlockUnboard,
                      empty := s.empty + 1, pE := s.pE + 1 }
      else some { s with pc := Function.update s.pc i .unlockUnboard }
    | .unlockUnboard =>
      some { s with pc := Function.update s.pc i .loopTop, owner := none }
    | .stopped => none

lemma runAct_sound (s s' : St) (a : Act) (h : runAct s a = some s') : Step s s' := by
  cases a with
  | tick =>
    simp only [runAct] at h
    split at h
    · injection h with h2
      subst h2
      exact Step.tick s (by assumption)
    · cases h
  | fer =>
    cases hf : s.ferry with
    | top =>
      simp only [runAct, hf] at h
      split at h
      · injection h with h2
        subst h2
        exact Step.ferryStopTop s hf (by assumption)
      · injection h with h2
        subst h2
        exact Step.ferryStartBoarding s hf
          (by simpa using (by assumption : ¬ s.timeUp = true))
    | postBoard i =>
      simp only [runAct, hf] at h
      split at h
      · injection h with h2
        subst h2
        exact Step.ferryPostBoard s i hf (by assumption)
      · split at h
        · injection h with h2
          subst h2
          exact Step.ferryPostBoardLast s i hf (by assumption)
        · cases h
    | waitFull =>
      simp only [runAct, hf] at h
      split at h
      · injection h with h2
        subst h2
        exact Step.ferryFullWait s hf (by assumption)
      · cases h
    | check2 =>
      simp only [runAct, hf] at h
      split at h
      · injection h with h2
        subst h2
        exact Step.ferryStopCheck2 s hf (by assumption)
      · injection h with h2
        subst h2
        exact Step.ferryDepart s hf
          (by simpa using (by assumption : ¬ s.timeUp = true))
    | crossing =>
      simp only [runAct, hf] at h
      injection h with h2
      subst h2
      exact Step.ferryArrive s hf
    | postUnboard i =>
      simp only [runAct, hf] at h
      split at h
      · injection h with h2
        subst h2
        exact Step.ferryPostUnboard s i hf (by assumption)
      · split at h
        · injection h with h2
          subst h2
          exact Step.ferryPostUnboardLast s i hf (by assumption)
        · cases h
    | waitEmpty =>
      simp only [runAct, hf] at h
      split at h
      · injection h with h2
        subst h2
        exact Step.ferryEmptyWait s hf (by assumption)
      · cases h
    | fdone =>
      simp only [runAct, hf] at h
      cases h
  | car i =>
    cases hc : s.pc i with
    | loopTop =>
      simp only [runAct, hc] at h
      split at h
      · injection h with h2
        subst h2
        exact Step.carStop s i hc (by assumption)
      · injection h with h2
        subst h2
        exact Step.carStart s i hc
          (by simpa using (by assumption : ¬ s.timeUp = true))
    | waitBoard =>
      simp only [runAct, hc] at h
      split at h
      · injection h with h2
        subst h2
        exact Step.carBoardPermit s i hc (by assumption)
      · cases h
    | lockBoard =>
      simp only [runAct, hc] at h
      cases ho : s.owner with
      | none =>
        simp only [ho] at h
        injection h with h2
        subst h2
        exact Step.carLockB s i hc ho
      | some j =>
        simp only [ho] at h
        cases h
    | boardSleep =>
      simp only [runAct, hc] at h
      injection h with h2
      subst h2
      exact Step.carSleepB s i hc
    | incCount =>
      simp only [runAct, hc] at h
      injection h with h2
      subst h2
      exact Step.carInc s i hc
    | checkFull =>
      simp only [runAct, hc] at h
      split at h
      · injection h with h2
        subst h2
        exact Step.carFullPost s i hc (by assumption)
      · injection h with h2
        subst h2
        exact Step.carFullSkip s i hc (by assumption)
    | unlockBoard =>
      simp only [runAct, hc] at h
      injection h with h2
      subst h2
      exact Step.carUnlockB s i hc
    | waitUnboard =>
      simp only [runAct, hc] at h
      split at h
      · injection h with h2
        subst h2
        exact Step.carUnboardPermit s i hc (by assumption)
      · cases h
    | leaveSleep =>
      simp only [runAct, hc] at h
      injection h with h2
      subst h2
      exact Step.carLeave s i hc
    | lockUnboard =>
      simp only [runAct, hc] at h
      cases ho : s.owner with
      | none =>
        simp only [ho] at h
        injection h with h2
        subst h2
        exact Step.carLockU s i hc ho
      | some j =>
        simp only [ho] at h
        cases h
    | decCount =>
      simp only [runAct, hc] at h
      injection h with h2
      subst h2
      exact Step.carDec s i hc
    | checkEmpty =>
      simp only [runAct, hc] at h
      split at h
      · injection h with h2
        subst h2
        exact Step.carEmptyPost s i hc (by assumption)
      · injection h with h2
        subst h2
        exact Step.carEmptySkip s i hc (by assumption)
    | unlockUnboard =>
      simp only [runAct, hc] at h
      injection h with h2
      subst h2
      exact Step.carUnlockU s i hc
    | stopped =>
      simp only [runAct, hc] at h
      cases h

/-- Run a list of scheduling decisions from a state. -/
def runList : St → List Act → Option St
  | s, [] => some s
  | s, a :: rest =>
    match runAct s a with
    | none => none
    | some s' => runList s' rest

lemma reach_runList (s s' : St) (l : List Act) (hs : Reach s)
    (h : runList s l = some s') : Reach s' := by
  induction l generalizing s with
  | nil =>
    unfold runList at h
    cases h
    exact hs
  | cons a rest ih =>
    unfold runList at h
    split at h
    · cases h
    case _ s1 h1 =>
      exact ih s1 (Reach.step hs (runAct_sound s s1 a h1)) h

/-- Counter relations that hold whenever the ferry is at the top of its
loop: all events of the completed cycles have balanced out. -/
def ferryAtTop (s : St) : Prop :=
  s.pB = 5 * s.wE ∧ s.wB = 5 * s.wE ∧ s.inc = 5 * s.wE ∧ s.wF = s.wE ∧ s.pF = s.wE ∧
  s.pU = 5 * s.wE ∧ s.wU = 5 * s.wE ∧ s.dec = 5 * s.wE ∧ s.pE = s.wE ∧
  ∀ j, s.pc j = .loopTop ∨ s.pc j = .waitBoard ∨ s.pc j = .unlockUnboard ∨ s.pc j = .stopped

/-- Counter relations common to the boarding phase (ferry posting board
permits or waiting on sem_full). -/
def boardingCommon (s : St) : Prop :=
  s.wF = s.wE ∧ s.pU = 5 * s.wE ∧ s.wU = 5 * s.wE ∧ s.dec = 5 * s.wE ∧ s.pE = s.wE ∧
  ∀ j, s.pc j ≠ .checkEmpty

/-- Counter relations while the ferry is between consuming sem_full and
posting the first unboard permit: all five cars are aboard. -/
def crossingRow (s : St) : Prop :=
  s.pB = 5 * s.wE + 5 ∧ s.wB = 5 * s.wE + 5 ∧ s.inc = 5 * s.wE + 5 ∧
  s.wF = s.wE + 1 ∧ s.pF = s.wE + 1 ∧ s.pU = 5 * s.wE ∧ s.wU = 5 * s.wE ∧
  s.dec = 5 * s.wE ∧ s.pE = s.wE ∧ ∀ j, s.pc j = .unlockBoard ∨ s.pc j = .waitUnboard

/-- Counter relations common to the unboarding phase. -/
def unboardingCommon (s : St) : Prop :=
  s.pB = 5 * s.wE + 5 ∧ s.wB = 5 * s.wE + 5 ∧ s.inc = 5 * s.wE + 5 ∧
  s.wF = s.wE + 1 ∧ s.pF = s.wE + 1 ∧ ∀ j, s.pc j ≠ .checkFull

/-- Phase-indexed part of the global invariant, keyed on the ferry location. -/
def phaseInv (s : St) : Prop :=
  (s.ferry = .top → ferryAtTop s) ∧
  (∀ i, s.ferry = .postBoard i →
    i < 5 ∧ s.pB = 5 * s.wE + i ∧ s.pF = s.wE ∧ boardingCommon s) ∧
  (s.ferry = .waitFull → s.pB = 5 * s.wE + 5 ∧ boardingCommon s ∧
    ((s.pF = s.wE ∧ (s.count = 5 → ∃ j, s.pc j = .checkFull)) ∨
     (s.pF = s.wE + 1 ∧ s.count = 5 ∧ ∀ j, s.pc j ≠ .checkFull))) ∧
  (s.ferry = .check2 → crossingRow s) ∧
  (s.ferry = .crossing → crossingRow s) ∧
  (∀ i, s.ferry = .postUnboard i →
    i < 5 ∧ s.pU = 5 * s.wE + i ∧ s.pE = s.wE ∧ unboardingCommon s) ∧
  (s.ferry = .waitEmpty → s.pU = 5 * s.wE + 5 ∧ unboardingCommon s ∧
    ((s.pE = s.wE ∧ (s.count = 0 → ∃ j, s.pc j = .checkEmpty)) ∨
     (s.pE = s.wE + 1 ∧ s.count = 0 ∧ ∀ j, s.pc j ≠ .checkEmpty))) ∧
  (s.ferry = .fdone → ferryAtTop s ∨ crossingRow s)

/-- The global inductive invariant: semaphore ledgers (posted = waited +
current value), pipeline ledgers (each consumed permit is accounted for by
a car position or a committed counter update), the counter as the
difference of increments and decrements, mutex ownership, and the
phase-indexed relations. -/
structure SimInv (s : St) : Prop where
  lB : s.pB = s.wB + s.board
  lF : s.pF = s.wF + s.full
  lU : s.pU = s.wU + s.unboard
  lE : s.pE = s.wE + s.empty
  gB : s.wB = s.inc + cnt s.pc preInc
  gI : s.inc = s.wU + cnt s.pc aboard
  gU : s.wU = s.dec + cnt s.pc preDec
  gC : s.count = (s.inc : Int) - (s.dec : Int)
  mx : ∀ j, inCS (s.pc j) = true ↔ s.owner = some j
  ph : phaseInv s

lemma inv_init : SimInv initSt := by
  refine ⟨rfl, rfl, rfl, rfl, by decide, by decide, by decide, rfl, by decide, ?_⟩
  exact ⟨fun _ => ⟨rfl, rfl, rfl, rfl, rfl, rfl, rfl, rfl, rfl, fun j => Or.inl rfl⟩,
    fun i hx => FerryPc.noConfusion hx,
    fun hx => FerryPc.noConfusion hx, fun hx => FerryPc.noConfusion hx,
    fun hx => FerryPc.noConfusion hx, fun i hx => FerryPc.noConfusion hx,
    fun hx => FerryPc.noConfusion hx, fun hx => FerryPc.noConfusion hx⟩

lemma forall_update {Q : CarPc → Prop} (pc : Fin 5 → CarPc) (i : Fin 5) (v : CarPc)
    (hv : Q v) (hall : ∀ j, Q (pc j)) : ∀ j, Q (Function.update pc i v j) := by
  intro j
  rcases eq_or_ne j i with rfl | hj
  · simpa using hv
  · rw [Function.update_noteq hj]
    exact hall j

lemma exists_update_of_ne (pc : Fin 5 → CarPc) (i : Fin 5) (v w : CarPc) (j : Fin 5)
    (hj : pc j = w) (hi : pc i ≠ w) : ∃ k, Function.update pc i v k = w := by
  have hne : j ≠ i := fun he => hi (he ▸ hj)
  exact ⟨j, by rw [Function.update_noteq hne]; exact hj⟩

lemma mx_update_same (pc : Fin 5 → CarPc) (owner : Option (Fin 5)) (i : Fin 5) (v : CarPc)
    (h : ∀ j, inCS (pc j) = true ↔ owner = some j) (hsame : inCS v = inCS (pc i)) :
    ∀ j, inCS (Function.update pc i v j) = true ↔ owner = some j := by
  intro j
  rcases eq_or_ne j i with rfl | hj
  · rw [Function.update_same, hsame]
    exact h j
  · rw [Function.update_noteq hj]
    exact h j

lemma mx_lock (pc : Fin 5 → CarPc) (i : Fin 5) (v : CarPc)
    (h : ∀ j, inCS (pc j) = true ↔ (none : Option (Fin 5)) = some j)
    (hv : inCS v = true) :
    ∀ j, inCS (Function.update pc i v j) = true ↔ some i = some j := by
  intro j
  rcases eq_or_ne j i with rfl | hj
  · simp [Function.update_same, hv]
  · rw [Function.update_noteq hj]
    constructor
    · intro hc
      exact absurd ((h j).mp hc) (by simp)
    · intro he
      exact absurd (Option.some.inj he).symm hj
  
lemma mx_unlock (pc : Fin 5 → CarPc) (owner : Option (Fin 5)) (i : Fin 5) (v : CarPc)
    (h : ∀ j, inCS (pc j) = true ↔ owner = some j) (hin : inCS (pc i) = true)
    (hv : inCS v = false) :
    ∀ j, inCS (Function.update pc i v j) = true ↔ (none : Option (Fin 5)) = some j := by
  have ho : owner = some i := (h i).mp hin
  intro j
  rcases eq_or_ne j i with rfl | hj
  · simp [Function.update_same, hv]
  · rw [Function.update_noteq hj]
    constructor
    · intro hc
      have hx := (h j).mp hc
      rw [ho] at hx
      exact absurd (Option.some.inj hx).symm hj
    · intro he
      exact Option.noConfusion he

lemma inv_tick (s : St) (h : SimInv s) : SimInv { s with timeUp := true } :=
  ⟨h.lB, h.lF, h.lU, h.lE, h.gB, h.gI, h.gU, h.gC, h.mx, h.ph⟩

lemma inv_ferryStopTop (s : St) (h : SimInv s) (hf : s.ferry = .top) :
    SimInv { s with ferry := .fdone } :=
  ⟨h.lB, h.lF, h.lU, h.lE, h.gB, h.gI, h.gU, h.gC, h.mx,
    fun hx => FerryPc.noConfusion hx,
    fun _ hx => FerryPc.noConfusion hx,
    fun hx => FerryPc.noConfusion hx,
    fun hx => FerryPc.noConfusion hx,
    fun hx => FerryPc.noConfusion hx,
    fun _ hx => FerryPc.noConfusion hx,
    fun hx => FerryPc.noConfusion hx,
    fun _ => Or.inl (h.ph.1 hf)⟩

lemma inv_ferryStartBoarding (s : St) (h : SimInv s) (hf : s.ferry = .top) :
    SimInv { s with ferry := .postBoard 0 } := by
  obtain ⟨hpB, hwB, hinc, hwF, hpF, hpU, hwU, hdec, hpE, hall⟩ := h.ph.1 hf
  refine ⟨h.lB, h.lF, h.lU, h.lE, h.gB, h.gI, h.gU, h.gC, h.mx,
    fun hx => FerryPc.noConfusion hx, ?_,
    fun hx => FerryPc.noConfusion hx,
    fun hx => FerryPc.noConfusion hx,
    fun hx => FerryPc.noConfusion hx,
    fun _ hx => FerryPc.noConfusion hx,
    fun hx => FerryPc.noConfusion hx,
    fun hx => FerryPc.noConfusion hx⟩
  intro i hx
  have hi : (0 : Nat) = i := by injection hx
  subst hi
  refine ⟨by omega, by dsimp only; omega, hpF, hwF, hpU, hwU, hdec, hpE, ?_⟩
  intro j
  rcases hall j with hh | hh | hh | hh <;> simp [hh]

lemma inv_ferryPostBoard (s : St) (i : Nat) (h : SimInv s)
    (hf : s.ferry = .postBoard i) (hi : i + 1 < 5) :
    SimInv { s with ferry := .postBoard (i + 1), board := s.board + 1, pB := s.pB + 1 } := by
  obtain ⟨lB, lF, lU, lE, gB, gI, gU, gC, mx, ph⟩ := h
  obtain ⟨hi5, hpB, hpF, hbc⟩ := ph.2.1 i hf
  refine ⟨by dsimp only; omega, lF, lU, lE, gB, gI, gU, gC, mx,
    fun hx => FerryPc.noConfusion hx, ?_,
    fun hx => FerryPc.noConfusion hx,
    fun hx => FerryPc.noConfusion hx,
    fun hx => FerryPc.noConfusion hx,
    fun _ hx => FerryPc.noConfusion hx,
    fun hx => FerryPc.noConfusion hx,
    fun hx => FerryPc.noConfusion hx⟩
  intro k hx
  have hk : i + 1 = k := by injection hx
  subst hk
  exact ⟨hi, by dsimp only; omega, hpF, hbc⟩

lemma inv_ferryPostBoardLast (s : St) (i : Nat) (h : SimInv s)
    (hf : s.ferry = .postBoard i) (hi : i + 1 = 5) :
    SimInv { s with ferry := .waitFull, board := s.board + 1, pB := s.pB + 1 } := by
  obtain ⟨lB, lF, lU, lE, gB, gI, gU, gC, mx, ph⟩ := h
  obtain ⟨hi5, hpB, hpF, hbc⟩ := ph.2.1 i hf
  obtain ⟨bWF, bPU, bWU, bDec, bPE, bNoCE⟩ := hbc
  refine ⟨by dsimp only; omega, lF, lU, lE, gB, gI, gU, gC, mx,
    fun hx => FerryPc.noConfusion hx,
    fun _ hx => FerryPc.noConfusion hx, ?_,
    fun hx => FerryPc.noConfusion hx,
    fun hx => FerryPc.noConfusion hx,
    fun _ hx => FerryPc.noConfusion hx,
    fun hx => FerryPc.noConfusion hx,
    fun hx => FerryPc.noConfusion hx⟩
  intro hx
  refine ⟨by dsimp only; omega, ⟨bWF, bPU, bWU, bDec, bPE, bNoCE⟩, Or.inl ⟨hpF, ?_⟩⟩
  intro hc
  exact absurd hc (by dsimp only; omega)

lemma inv_ferryFullWait (s : St) (h : SimInv s)
    (hf : s.ferry = .waitFull) (hfull : 0 < s.full) :
    SimInv { s with ferry := .check2, full := s.full - 1, wF := s.wF + 1 } := by
  obtain ⟨lB, lF, lU, lE, gB, gI, gU, gC, mx, ph⟩ := h
  obtain ⟨hpB5, hbc, hdisj⟩ := ph.2.2.1 hf
  obtain ⟨bWF, bPU, bWU, bDec, bPE, bNoCE⟩ := hbc
  rcases hdisj with ⟨hpF, _⟩ | ⟨hpF1, hc5, hnoCF⟩
  · exact absurd hfull (by omega)
  have hinc : s.inc = 5 * s.wE + 5 := by omega
  have hcnt5 : cnt s.pc aboard = 5 := by omega
  have hallA := all_of_cnt_five s.pc aboard hcnt5
  have hpre0 : cnt s.pc preInc = 0 := by
    rw [cnt_eq_zero_iff]
    intro j
    have ha := hallA j
    revert ha
    cases s.pc j <;> decide
  have hwB : s.wB = 5 * s.wE + 5 := by omega
  have hallUW : ∀ j, s.pc j = .unlockBoard ∨ s.pc j = .waitUnboard := by
    intro j
    have ha := hallA j
    have hn := hnoCF j
    revert ha hn
    cases s.pc j <;> decide
  refine ⟨lB, by dsimp only; omega, lU, lE, gB, gI, gU, gC, mx,
    fun hx => FerryPc.noConfusion hx,
    fun _ hx => FerryPc.noConfusion hx,
    fun hx => FerryPc.noConfusion hx, ?_,
    fun hx => FerryPc.noConfusion hx,
    fun _ hx => FerryPc.noConfusion hx,
    fun hx => FerryPc.noConfusion hx,
    fun hx => FerryPc.noConfusion hx⟩
  intro hx
  exact ⟨hpB5, hwB, hinc, by dsimp only; omega, hpF1, bPU, bWU, bDec, bPE, hallUW⟩

lemma inv_ferryStopCheck2 (s : St) (h : SimInv s) (hf : s.ferry = .check2) :
    SimInv { s with ferry := .fdone } :=
  ⟨h.lB, h.lF, h.lU, h.lE, h.gB, h.gI, h.gU, h.gC, h.mx,
    fun hx => FerryPc.noConfusion hx,
    fun _ hx => FerryPc.noConfusion hx,
    fun hx => FerryPc.noConfusion hx,
    fun hx => FerryPc.noConfusion hx,
    fun hx => FerryPc.noConfusion hx,
    fun _ hx => FerryPc.noConfusion hx,
    fun hx => FerryPc.noConfusion hx,
    fun _ => Or.inr (h.ph.2.2.2.1 hf)⟩

lemma inv_ferryDepart (s : St) (h : SimInv s) (hf : s.ferry = .check2) :
    SimInv { s with ferry := .crossing } :=
  ⟨h.lB, h.lF, h.lU, h.lE, h.gB, h.gI, h.gU, h.gC, h.mx,
    fun hx => FerryPc.noConfusion hx,
    fun _ hx => FerryPc.noConfusion hx,
    fun hx => FerryPc.noConfusion hx,
    fun hx => FerryPc.noConfusion hx,
    fun _ => h.ph.2.2.2.1 hf,
    fun _ hx => FerryPc.noConfusion hx,
    fun hx => FerryPc.noConfusion hx,
    fun hx => FerryPc.noConfusion hx⟩

lemma inv_ferryArrive (s : St) (h : SimInv s) (hf : s.ferry = .crossing) :
    SimInv { s with ferry := .postUnboard 0 } := by
  obtain ⟨lB, lF, lU, lE, gB, gI, gU, gC, mx, ph⟩ := h
  obtain ⟨cPB, cWB, cInc, cWF, cPF, cPU, cWU, cDec, cPE, cAll⟩ := ph.2.2.2.2.1 hf
  refine ⟨lB, lF, lU, lE, gB, gI, gU, gC, mx,
    fun hx => FerryPc.noConfusion hx,
    fun _ hx => FerryPc.noConfusion hx,
    fun hx => FerryPc.noConfusion hx,
    fun hx => FerryPc.noConfusion hx,
    fun hx => FerryPc.noConfusion hx, ?_,
    fun hx => FerryPc.noConfusion hx,
    fun hx => FerryPc.noConfusion hx⟩
  intro k hx
  have hk : (0 : Nat) = k := by injection hx
  subst hk
  refine ⟨by omega, by dsimp only; omega, cPE, cPB, cWB, cInc, cWF, cPF, ?_⟩
  intro j
  rcases cAll j with hh | hh <;> simp [hh]

lemma inv_ferryPostUnboard (s : St) (i : Nat) (h : SimInv s)
    (hf : s.ferry = .postUnboard i) (hi : i + 1 < 5) :
    SimInv { s with ferry := .postUnboard (i + 1), unboard := s.unboard + 1, pU := s.pU + 1 } := by
  obtain ⟨lB, lF, lU, lE, gB, gI, gU, gC, mx, ph⟩ := h
  obtain ⟨hi5, hpU, hpE, huc⟩ := ph.2.2.2.2.2.1 i hf
  refine ⟨lB, lF, by dsimp only; omega, lE, gB, gI, gU, gC, mx,
    fun hx => FerryPc.noConfusion hx,
    fun _ hx => FerryPc.noConfusion hx,
    fun hx => FerryPc.noConfusion hx,
    fun hx => FerryPc.noConfusion hx,
    fun hx => FerryPc.noConfusion hx, ?_,
    fun hx => FerryPc.noConfusion hx,
    fun hx => FerryPc.noConfusion hx⟩
  intro k hx
  have hk : i + 1 = k := by injection hx
  subst hk
  exact ⟨hi, by dsimp only; omega, hpE, huc⟩

lemma inv_ferryPostUnboardLast (s : St) (i : Nat) (h : SimInv s)
    (hf : s.ferry = .postUnboard i) (hi : i + 1 = 5) :
    SimInv { s with ferry := .waitEmpty, unboard := s.unboard + 1, pU := s.pU + 1 } := by
  obtain ⟨lB, lF, lU, lE, gB, gI, gU, gC, mx, ph⟩ := h
  obtain ⟨hi5, hpU, hpE, huc⟩ := ph.2.2.2.2.2.1 i hf
  obtain ⟨uPB, uWB, uInc, uWF, uPF, uNoCF⟩ := huc
  refine ⟨lB, lF, by dsimp only; omega, lE, gB, gI, gU, gC, mx,
    fun hx => FerryPc.noConfusion hx,
    fun _ hx => FerryPc.noConfusion hx,
    fun hx => FerryPc.noConfusion hx,
    fun hx => FerryPc.noConfusion hx,
    fun hx => FerryPc.noConfusion hx,
    fun _ hx => FerryPc.noConfusion hx, ?_,
    fun hx => FerryPc.noConfusion hx⟩
  intro hx
  refine ⟨by dsimp only; omega, ⟨uPB, uWB, uInc, uWF, uPF, uNoCF⟩, Or.inl ⟨hpE, ?_⟩⟩
  intro hc
  exact absurd hc (by dsimp only; omega)

lemma inv_ferryEmptyWait (s : St) (h : SimInv s)
    (hf : s.ferry = .waitEmpty) (hempty : 0 < s.empty) :
    SimInv { s with ferry := .top, empty := s.empty - 1, wE := s.wE + 1 } := by
  obtain ⟨lB, lF, lU, lE, gB, gI, gU, gC, mx, ph⟩ := h
  obtain ⟨hpU5, huc, hdisj⟩ := ph.2.2.2.2.2.2.1 hf
  obtain ⟨uPB, uWB, uInc, uWF, uPF, uNoCF⟩ := huc
  rcases hdisj with ⟨hpE, _⟩ | ⟨hpE1, hc0, hnoCE⟩
  · exact absurd hempty (by omega)
  have hdec : s.dec = 5 * s.wE + 5 := by omega
  have hwU : s.wU = 5 * s.wE + 5 := by omega
  have hpredec0 : cnt s.pc preDec = 0 := by omega
  have hab0 : cnt s.pc aboard = 0 := by omega
  have hpre0 : cnt s.pc preInc = 0 := by omega
  have hall : ∀ j, s.pc j = .loopTop ∨ s.pc j = .waitBoard ∨
      s.pc j = .unlockUnboard ∨ s.pc j = .stopped := by
    intro j
    have h1 := (cnt_eq_zero_iff s.pc preInc).mp hpre0 j
    have h2 := (cnt_eq_zero_iff s.pc aboard).mp hab0 j
    have h3 := (cnt_eq_zero_iff s.pc preDec).mp hpredec0 j
    have h4 := uNoCF j
    have h5 := hnoCE j
    revert h1 h2 h3 h4 h5
    cases s.pc j <;> decide
  refine ⟨lB, lF, lU, by dsimp only; omega, gB, gI, gU, gC, mx, ?_,
    fun _ hx => FerryPc.noConfusion hx,
    fun hx => FerryPc.noConfusion hx,
    fun hx => FerryPc.noConfusion hx,
    fun hx => FerryPc.noConfusion hx,
    fun _ hx => FerryPc.noConfusion hx,
    fun hx => FerryPc.noConfusion hx,
    fun hx => FerryPc.noConfusion hx⟩
  intro hx
  refine ⟨by dsimp only; omega, by dsimp only; omega, by dsimp only; omega,
    by dsimp only; omega, by dsimp only; omega, by dsimp only; omega,
    by dsimp only; omega, by dsimp only; omega, by dsimp only; omega, hall⟩

lemma disjF_update (s : St) (i : Fin 5) (v : CarPc) (hvne : v ≠ CarPc.checkFull)
    (hine : s.pc i ≠ CarPc.checkFull)
    (hd : (s.pF = s.wE ∧ (s.count = 5 → ∃ j, s.pc j = .checkFull)) ∨
          (s.pF = s.wE + 1 ∧ s.count = 5 ∧ ∀ j, s.pc j ≠ .checkFull)) :
    (s.pF = s.wE ∧ (s.count = 5 → ∃ j, Function.update s.pc i v j = .checkFull)) ∨
    (s.pF = s.wE + 1 ∧ s.count = 5 ∧ ∀ j, Function.update s.pc i v j ≠ .checkFull) := by
  rcases hd with ⟨h1, h2⟩ | ⟨h1, h2, h3⟩
  · refine Or.inl ⟨h1, fun hc => ?_⟩
    obtain ⟨j, hj⟩ := h2 hc
    exact exists_update_of_ne s.pc i v _ j hj hine
  · exact Or.inr ⟨h1, h2,
      forall_update (Q := fun p => p ≠ CarPc.checkFull) s.pc i v hvne h3⟩

lemma disjE_update (s : St) (i : Fin 5) (v : CarPc) (hvne : v ≠ CarPc.checkEmpty)
    (hine : s.pc i ≠ CarPc.checkEmpty)
    (hd : (s.pE = s.wE ∧ (s.count = 0 → ∃ j, s.pc j = .checkEmpty)) ∨
          (s.pE = s.wE + 1 ∧ s.count = 0 ∧ ∀ j, s.pc j ≠ .checkEmpty)) :
    (s.pE = s.wE ∧ (s.count = 0 → ∃ j, Function.update s.pc i v j = .checkEmpty)) ∨
    (s.pE = s.wE + 1 ∧ s.count = 0 ∧ ∀ j, Function.update s.pc i v j ≠ .checkEmpty) := by
  rcases hd with ⟨h1, h2⟩ | ⟨h1, h2, h3⟩
  · refine Or.inl ⟨h1, fun hc => ?_⟩
    obtain ⟨j, hj⟩ := h2 hc
    exact exists_update_of_ne s.pc i v _ j hj hine
  · exact Or.inr ⟨h1, h2,
      forall_update (Q := fun p => p ≠ CarPc.checkEmpty) s.pc i v hvne h3⟩

lemma phaseInv_update_pcOnly (s : St) (i : Fin 5) (v : CarPc)
    (ph : phaseInv s)
    (hvCF : v ≠ CarPc.checkFull) (hiCF : s.pc i ≠ CarPc.checkFull)
    (hvCE : v ≠ CarPc.checkEmpty) (hiCE : s.pc i ≠ CarPc.checkEmpty)
    (htop : (s.pc i = .loopTop ∨ s.pc i = .waitBoard ∨
             s.pc i = .unlockUnboard ∨ s.pc i = .stopped) →
            (v = .loopTop ∨ v = .waitBoard ∨ v = .unlockUnboard ∨ v = .stopped))
    (hcross : (s.pc i = .unlockBoard ∨ s.pc i = .waitUnboard) →
              (v = .unlockBoard ∨ v = .waitUnboard)) :
    phaseInv { s with pc := Function.update s.pc i v } := by
  obtain ⟨pTop, pPB, pWF, pC2, pCr, pPU, pWEm, pDn⟩ := ph
  refine ⟨?_, ?_, ?_, ?_, ?_, ?_, ?_, ?_⟩
  · intro hx
    obtain ⟨tPB, tWB, tInc, tWF, tPF, tPU, tWU, tDec, tPE, tAll⟩ := pTop hx
    refine ⟨tPB, tWB, tInc, tWF, tPF, tPU, tWU, tDec, tPE, ?_⟩
    dsimp only
    intro j
    rcases eq_or_ne j i with rfl | hj
    · rw [Function.update_same]
      exact htop (tAll j)
    · rw [Function.update_noteq hj]
      exact tAll j
  · intro k hx
    obtain ⟨hk5, hpB, hpF, bWF, bPU, bWU, bDec, bPE, bNoCE⟩ := pPB k hx
    exact ⟨hk5, hpB, hpF, bWF, bPU, bWU, bDec, bPE,
      forall_update (Q := fun p => p ≠ CarPc.checkEmpty) s.pc i v hvCE bNoCE⟩
  · intro hx
    obtain ⟨hpB5, ⟨bWF, bPU, bWU, bDec, bPE, bNoCE⟩, hdisj⟩ := pWF hx
    exact ⟨hpB5, ⟨bWF, bPU, bWU, bDec, bPE,
      forall_update (Q := fun p => p ≠ CarPc.checkEmpty) s.pc i v hvCE bNoCE⟩,
      disjF_update s i v hvCF hiCF hdisj⟩
  · intro hx
    obtain ⟨cPB, cWB, cInc, cWF, cPF, cPU, cWU, cDec, cPE, cAll⟩ := pC2 hx
    refine ⟨cPB, cWB, cInc, cWF, cPF, cPU, cWU, cDec, cPE, ?_⟩
    dsimp only
    intro j
    rcases eq_or_ne j i with rfl | hj
    · rw [Function.update_same]
      exact hcross (cAll j)
    · rw [Function.update_noteq hj]
      exact cAll j
  · intro hx
    obtain ⟨cPB, cWB, cInc, cWF, cPF, cPU, cWU, cDec, cPE, cAll⟩ := pCr hx
    refine ⟨cPB, cWB, cInc, cWF, cPF, cPU, cWU, cDec, cPE, ?_⟩
    dsimp only
    intro j
    rcases eq_or_ne j i with rfl | hj
    · rw [Function.update_same]
      exact hcross (cAll j)
    · rw [Function.update_noteq hj]
      exact cAll j
  · intro k hx
    obtain ⟨hk5, hpU, hpE, uPB, uWB, uInc, uWF, uPF, uNoCF⟩ := pPU k hx
    exact ⟨hk5, hpU, hpE, uPB, uWB, uInc, uWF, uPF,
      forall_update (Q := fun p => p ≠ CarPc.checkFull) s.pc i v hvCF uNoCF⟩
  · intro hx
    obtain ⟨hpU5, ⟨uPB, uWB, uInc, uWF, uPF, uNoCF⟩, hdisj⟩ := pWEm hx
    exact ⟨hpU5, ⟨uPB, uWB, uInc, uWF, uPF,
      forall_update (Q := fun p => p ≠ CarPc.checkFull) s.pc i v hvCF uNoCF⟩,
      disjE_update s i v hvCE hiCE hdisj⟩
  · intro hx
    rcases pDn hx with ht | hc
    · obtain ⟨tPB, tWB, tInc, tWF, tPF, tPU, tWU, tDec, tPE, tAll⟩ := ht
      refine Or.inl ⟨tPB, tWB, tInc, tWF, tPF, tPU, tWU, tDec, tPE, ?_⟩
      dsimp only
      intro j
      rcases eq_or_ne j i with rfl | hj
      · rw [Function.update_same]
        exact htop (tAll j)
      · rw [Function.update_noteq hj]
        exact tAll j
    · obtain ⟨cPB, cWB, cInc, cWF, cPF, cPU, cWU, cDec, cPE, cAll⟩ := hc
      refine Or.inr ⟨cPB, cWB, cInc, cWF, cPF, cPU, cWU, cDec, cPE, ?_⟩
      dsimp only
      intro j
      rcases eq_or_ne j i with rfl | hj
      · rw [Function.update_same]
        exact hcross (cAll j)
      · rw [Function.update_noteq hj]
        exact cAll j

lemma inv_carStop (s : St) (i : Fin 5) (h : SimInv s) (hpc : s.pc i = .loopTop) :
    SimInv { s with pc := Function.update s.pc i .stopped } := by
  obtain ⟨lB, lF, lU, lE, gB, gI, gU, gC, mx, ph⟩ := h
  have eI := cnt_update s.pc i .stopped preInc
  have eA := cnt_update s.pc i .stopped aboard
  have eD := cnt_update s.pc i .stopped preDec
  rw [hpc] at eI eA eD
  simp [preInc, aboard, preDec] at eI eA eD
  refine ⟨lB, lF, lU, lE, by dsimp only; omega, by dsimp only; omega,
    by dsimp only; omega, gC,
    mx_update_same s.pc s.owner i .stopped mx (by rw [hpc]; rfl),
    phaseInv_update_pcOnly s i .stopped ph (by decide) (by rw [hpc]; decide)
      (by decide) (by rw [hpc]; decide) (by rw [hpc]; decide) (by rw [hpc]; decide)⟩

lemma inv_carStart (s : St) (i : Fin 5) (h : SimInv s) (hpc : s.pc i = .loopTop) :
    SimInv { s with pc := Function.update s.pc i .waitBoard } := by
  obtain ⟨lB, lF, lU, lE, gB, gI, gU, gC, mx, ph⟩ := h
  have eI := cnt_update s.pc i .waitBoard preInc
  have eA := cnt_update s.pc i .waitBoard aboard
  have eD := cnt_update s.pc i .waitBoard preDec
  rw [hpc] at eI eA eD
  simp [preInc, aboard, preDec] at eI eA eD
  refine ⟨lB, lF, lU, lE, by dsimp only; omega, by dsimp only; omega,
    by dsimp only; omega, gC,
    mx_update_same s.pc s.owner i .waitBoard mx (by rw [hpc]; rfl),
    phaseInv_update_pcOnly s i .waitBoard ph (by decide) (by rw [hpc]; decide)
      (by decide) (by rw [hpc]; decide) (by rw [hpc]; decide) (by rw [hpc]; decide)⟩

lemma inv_carLockB (s : St) (i : Fin 5) (h : SimInv s) (hpc : s.pc i = .lockBoard)
    (ho : s.owner = none) :
    SimInv { s with pc := Function.update s.pc i .boardSleep, owner := some i } := by
  obtain ⟨lB, lF, lU, lE, gB, gI, gU, gC, mx, ph⟩ := h
  have eI := cnt_update s.pc i .boardSleep preInc
  have eA := cnt_update s.pc i .boardSleep aboard
  have eD := cnt_update s.pc i .boardSleep preDec
  rw [hpc] at eI eA eD
  simp [preInc, aboard, preDec] at eI eA eD
  rw [ho] at mx
  refine ⟨lB, lF, lU, lE, by dsimp only; omega, by dsimp only; omega,
    by dsimp only; omega, gC,
    mx_lock s.pc i .boardSleep mx rfl,
    phaseInv_update_pcOnly s i .boardSleep ph (by decide) (by rw [hpc]; decide)
      (by decide) (by rw [hpc]; decide) (by rw [hpc]; decide) (by rw [hpc]; decide)⟩

lemma inv_carSleepB (s : St) (i : Fin 5) (h : SimInv s) (hpc : s.pc i = .boardSleep) :
    SimInv { s with pc := Function.update s.pc i .incCount } := by
  obtain ⟨lB, lF, lU, lE, gB, gI, gU, gC, mx, ph⟩ := h
  have eI := cnt_update s.pc i .incCount preInc
  have eA := cnt_update s.pc i .incCount aboard
  have eD := cnt_update s.pc i .incCount preDec
  rw [hpc] at eI eA eD
  simp [preInc, aboard, preDec] at eI eA eD
  refine ⟨lB, lF, lU, lE, by dsimp only; omega, by dsimp only; omega,
    by dsimp only; omega, gC,
    mx_update_same s.pc s.owner i .incCount mx (by rw [hpc]; rfl),
    phaseInv_update_pcOnly s i .incCount ph (by decide) (by rw [hpc]; decide)
      (by decide) (by rw [hpc]; decide) (by rw [hpc]; decide) (by rw [hpc]; decide)⟩

lemma inv_carUnlockB (s : St) (i : Fin 5) (h : SimInv s) (hpc : s.pc i = .unlockBoard) :
    SimInv { s with pc := Function.update s.pc i .waitUnboard, owner := none } := by
  obtain ⟨lB, lF, lU, lE, gB, gI, gU, gC, mx, ph⟩ := h
  have eI := cnt_update s.pc i .waitUnboard preInc
  have eA := cnt_update s.pc i .waitUnboard aboard
  have eD := cnt_update s.pc i .waitUnboard preDec
  rw [hpc] at eI eA eD
  simp [preInc, aboard, preDec] at eI eA eD
  refine ⟨lB, lF, lU, lE, by dsimp only; omega, by dsimp only; omega,
    by dsimp only; omega, gC,
    mx_unlock s.pc s.owner i .waitUnboard mx (by rw [hpc]; rfl) rfl,
    phaseInv_update_pcOnly s i .waitUnboard ph (by decide) (by rw [hpc]; decide)
      (by decide) (by rw [hpc]; decide) (by rw [hpc]; decide) (by rw [hpc]; decide)⟩

lemma inv_carLeave (s : St) (i : Fin 5) (h : SimInv s) (hpc : s.pc i = .leaveSleep) :
    SimInv { s with pc := Function.update s.pc i .lockUnboard } := by
  obtain ⟨lB, lF, lU, lE, gB, gI, gU, gC, mx, ph⟩ := h
  have eI := cnt_update s.pc i .lockUnboard preInc
  have eA := cnt_update s.pc i .lockUnboard aboard
  have eD := cnt_update s.pc i .lockUnboard preDec
  rw [hpc] at eI eA eD
  simp [preInc, aboard, preDec] at eI eA eD
  refine ⟨lB, lF, lU, lE, by dsimp only; omega, by dsimp only; omega,
    by dsimp only; omega, gC,
    mx_update_same s.pc s.owner i .lockUnboard mx (by rw [hpc]; rfl),
    phaseInv_update_pcOnly s i .lockUnboard ph (by decide) (by rw [hpc]; decide)
      (by decide) (by rw [hpc]; decide) (by rw [hpc]; decide) (by rw [hpc]; decide)⟩

lemma inv_carLockU (s : St) (i : Fin 5) (h : SimInv s) (hpc : s.pc i = .lockUnboard)
    (ho : s.owner = none) :
    SimInv { s with pc := Function.update s.pc i .decCount, owner := some i } := by
  obtain ⟨lB, lF, lU, lE, gB, gI, gU, gC, mx, ph⟩ := h
  have eI := cnt_update s.pc i .decCount preInc
  have eA := cnt_update s.pc i .decCount aboard
  have eD := cnt_update s.pc i .decCount preDec
  rw [hpc] at eI eA eD
  simp [preInc, aboard, preDec] at eI eA eD
  rw [ho] at mx
  refine ⟨lB, lF, lU, lE, by dsimp only; omega, by dsimp only; omega,
    by dsimp only; omega, gC,
    mx_lock s.pc i .decCount mx rfl,
    phaseInv_update_pcOnly s i .decCount ph (by decide) (by rw [hpc]; decide)
      (by decide) (by rw [hpc]; decide) (by rw [hpc]; decide) (by rw [hpc]; decide)⟩

lemma inv_carUnlockU (s : St) (i : Fin 5) (h : SimInv s) (hpc : s.pc i = .unlockUnboard) :
    SimInv { s with pc := Function.update s.pc i .loopTop, owner := none } := by
  obtain ⟨lB, lF, lU, lE, gB, gI, gU, gC, mx, ph⟩ := h
  have eI := cnt_update s.pc i .loopTop preInc
  have eA := cnt_update s.pc i .loopTop aboard
  have eD := cnt_update s.pc i .loopTop preDec
  rw [hpc] at eI eA eD
  simp [preInc, aboard, preDec] at eI eA eD
  refine ⟨lB, lF, lU, lE, by dsimp only; omega, by dsimp only; omega,
    by dsimp only; omega, gC,
    mx_unlock s.pc s.owner i .loopTop mx (by rw [hpc]; rfl) rfl,
    phaseInv_update_pcOnly s i .loopTop ph (by decide) (by rw [hpc]; decide)
      (by decide) (by rw [hpc]; decide) (by rw [hpc]; decide) (by rw [hpc]; decide)⟩

lemma unique_cs (s : St) (mx : ∀ j, inCS (s.pc j) = true ↔ s.owner = some j)
    (i : Fin 5) (hin : inCS (s.pc i) = true) (j : Fin 5) (hjn : j ≠ i)
    (hjin : inCS (s.pc j) = true) : False := by
  have h1 := (mx i).mp hin
  have h2 := (mx j).mp hjin
  rw [h1] at h2
  exact hjn (Option.some.inj h2).symm

lemma inv_carBoardPermit (s : St) (i : Fin 5) (h : SimInv s)
    (hpc : s.pc i = .waitBoard) (hb : 0 < s.board) :
    SimInv { s with pc := Function.update s.pc i .lockBoard,
                    board := s.board - 1, wB := s.wB + 1 } := by
  obtain ⟨lB, lF, lU, lE, gB, gI, gU, gC, mx, ph⟩ := h
  obtain ⟨pTop, pPB, pWF, pC2, pCr, pPU, pWEm, pDn⟩ := ph
  have eI := cnt_update s.pc i .lockBoard preInc
  have eA := cnt_update s.pc i .lockBoard aboard
  have eD := cnt_update s.pc i .lockBoard preDec
  rw [hpc] at eI eA eD
  simp [preInc, aboard, preDec] at eI eA eD
  refine ⟨by dsimp only; omega, lF, lU, lE, by dsimp only; omega,
    by dsimp only; omega, by dsimp only; omega, gC,
    mx_update_same s.pc s.owner i .lockBoard mx (by rw [hpc]; rfl),
    ?_, ?_, ?_, ?_, ?_, ?_, ?_, ?_⟩
  · intro hx
    obtain ⟨tPB, tWB, tInc, tWF, tPF, tPU, tWU, tDec, tPE, tAll⟩ := pTop hx
    exact absurd hb (by omega)
  · intro k hx
    obtain ⟨hk5, hpB, hpF, bWF, bPU, bWU, bDec, bPE, bNoCE⟩ := pPB k hx
    exact ⟨hk5, hpB, hpF, bWF, bPU, bWU, bDec, bPE,
      forall_update (Q := fun p => p ≠ CarPc.checkEmpty) s.pc i .lockBoard
        (by decide) bNoCE⟩
  · intro hx
    obtain ⟨hpB5, ⟨bWF, bPU, bWU, bDec, bPE, bNoCE⟩, hdisj⟩ := pWF hx
    exact ⟨hpB5, ⟨bWF, bPU, bWU, bDec, bPE,
      forall_update (Q := fun p => p ≠ CarPc.checkEmpty) s.pc i .lockBoard
        (by decide) bNoCE⟩,
      disjF_update s i .lockBoard (by decide) (by rw [hpc]; decide) hdisj⟩
  · intro hx
    obtain ⟨cPB, cWB, cInc, cWF, cPF, cPU, cWU, cDec, cPE, cAll⟩ := pC2 hx
    exact absurd hb (by omega)
  · intro hx
    obtain ⟨cPB, cWB, cInc, cWF, cPF, cPU, cWU, cDec, cPE, cAll⟩ := pCr hx
    exact absurd hb (by omega)
  · intro k hx
    obtain ⟨hk5, hpU, hpE, uPB, uWB, uInc, uWF, uPF, uNoCF⟩ := pPU k hx
    exact absurd hb (by omega)
  · intro hx
    obtain ⟨hpU5, ⟨uPB, uWB, uInc, uWF, uPF, uNoCF⟩, hdisj⟩ := pWEm hx
    exact absurd hb (by omega)
  · intro hx
    rcases pDn hx with ht | hcr
    · obtain ⟨tPB, tWB, tInc, tWF, tPF, tPU, tWU, tDec, tPE, tAll⟩ := ht
      exact absurd hb (by omega)
    · obtain ⟨cPB, cWB, cInc, cWF, cPF, cPU, cWU, cDec, cPE, cAll⟩ := hcr
      exact absurd hb (by omega)

lemma inv_carInc (s : St) (i : Fin 5) (h : SimInv s) (hpc : s.pc i = .incCount) :
    SimInv { s with pc := Function.update s.pc i .checkFull,
                    count := s.count + 1, inc := s.inc + 1 } := by
  obtain ⟨lB, lF, lU, lE, gB, gI, gU, gC, mx, ph⟩ := h
  obtain ⟨pTop, pPB, pWF, pC2, pCr, pPU, pWEm, pDn⟩ := ph
  have eI := cnt_update s.pc i .checkFull preInc
  have eA := cnt_update s.pc i .checkFull aboard
  have eD := cnt_update s.pc i .checkFull preDec
  rw [hpc] at eI eA eD
  simp [preInc, aboard, preDec] at eI eA eD
  refine ⟨lB, lF, lU, lE, by dsimp only; omega, by dsimp only; omega,
    by dsimp only; omega, by dsimp only; push_cast; omega,
    mx_update_same s.pc s.owner i .checkFull mx (by rw [hpc]; rfl),
    ?_, ?_, ?_, ?_, ?_, ?_, ?_, ?_⟩
  · intro hx
    obtain ⟨tPB, tWB, tInc, tWF, tPF, tPU, tWU, tDec, tPE, tAll⟩ := pTop hx
    rcases tAll i with hh | hh | hh | hh <;> rw [hpc] at hh <;> exact CarPc.noConfusion hh
  · intro k hx
    obtain ⟨hk5, hpB, hpF, bWF, bPU, bWU, bDec, bPE, bNoCE⟩ := pPB k hx
    exact ⟨hk5, hpB, hpF, bWF, bPU, bWU, bDec, bPE,
      forall_update (Q := fun p => p ≠ CarPc.checkEmpty) s.pc i .checkFull
        (by decide) bNoCE⟩
  · intro hx
    obtain ⟨hpB5, ⟨bWF, bPU, bWU, bDec, bPE, bNoCE⟩, hdisj⟩ := pWF hx
    refine ⟨hpB5, ⟨bWF, bPU, bWU, bDec, bPE,
      forall_update (Q := fun p => p ≠ CarPc.checkEmpty) s.pc i .checkFull
        (by decide) bNoCE⟩, ?_⟩
    rcases hdisj with ⟨hpF, _⟩ | ⟨hpF1, hc5, _⟩
    · refine Or.inl ⟨hpF, fun _ => ⟨i, ?_⟩⟩
      dsimp only
      rw [Function.update_same]
    · exfalso
      have hcnt5 : cnt s.pc aboard = 5 := by omega
      have hai := all_of_cnt_five s.pc aboard hcnt5 i
      rw [hpc] at hai
      exact absurd hai (by decide)
  · intro hx
    obtain ⟨cPB, cWB, cInc, cWF, cPF, cPU, cWU, cDec, cPE, cAll⟩ := pC2 hx
    rcases cAll i with hh | hh <;> rw [hpc] at hh <;> exact CarPc.noConfusion hh
  · intro hx
    obtain ⟨cPB, cWB, cInc, cWF, cPF, cPU, cWU, cDec, cPE, cAll⟩ := pCr hx
    rcases cAll i with hh | hh <;> rw [hpc] at hh <;> exact CarPc.noConfusion hh
  · intro k hx
    obtain ⟨hk5, hpU, hpE, uPB, uWB, uInc, uWF, uPF, uNoCF⟩ := pPU k hx
    exfalso
    have h0 : cnt s.pc preInc = 0 := by omega
    have := (cnt_eq_zero_iff s.pc preInc).mp h0 i
    rw [hpc] at this
    exact absurd this (by decide)
  · intro hx
    obtain ⟨hpU5, ⟨uPB, uWB, uInc, uWF, uPF, uNoCF⟩, hdisj⟩ := pWEm hx
    exfalso
    have h0 : cnt s.pc preInc = 0 := by omega
    have := (cnt_eq_zero_iff s.pc preInc).mp h0 i
    rw [hpc] at this
    exact absurd this (by decide)
  · intro hx
    rcases pDn hx with ht | hcr
    · obtain ⟨tPB, tWB, tInc, tWF, tPF, tPU, tWU, tDec, tPE, tAll⟩ := ht
      rcases tAll i with hh | hh | hh | hh <;> rw [hpc] at hh <;> exact CarPc.noConfusion hh
    · obtain ⟨cPB, cWB, cInc, cWF, cPF, cPU, cWU, cDec, cPE, cAll⟩ := hcr
      rcases cAll i with hh | hh <;> rw [hpc] at hh <;> exact CarPc.noConfusion hh

lemma inv_carFullPost (s : St) (i : Fin 5) (h : SimInv s)
    (hpc : s.pc i = .checkFull) (hc : s.count = 5) :
    SimInv { s with pc := Function.update s.pc i .unlockBoard,
                    full := s.full + 1, pF := s.pF + 1 } := by
  obtain ⟨lB, lF, lU, lE, gB, gI, gU, gC, mx, ph⟩ := h
  obtain ⟨pTop, pPB, pWF, pC2, pCr, pPU, pWEm, pDn⟩ := ph
  have eI := cnt_update s.pc i .unlockBoard preInc
  have eA := cnt_update s.pc i .unlockBoard aboard
  have eD := cnt_update s.pc i .unlockBoard preDec
  rw [hpc] at eI eA eD
  simp [preInc, aboard, preDec] at eI eA eD
  refine ⟨lB, by dsimp only; omega, lU, lE, by dsimp only; omega,
    by dsimp only; omega, by dsimp only; omega, gC,
    mx_update_same s.pc s.owner i .unlockBoard mx (by rw [hpc]; rfl),
    ?_, ?_, ?_, ?_, ?_, ?_, ?_, ?_⟩
  · intro hx
    obtain ⟨tPB, tWB, tInc, tWF, tPF, tPU, tWU, tDec, tPE, tAll⟩ := pTop hx
    rcases tAll i with hh | hh | hh | hh <;> rw [hpc] at hh <;> exact CarPc.noConfusion hh
  · intro k hx
    obtain ⟨hk5, hpB, hpF, bWF, bPU, bWU, bDec, bPE, bNoCE⟩ := pPB k hx
    exact absurd hc (by omega)
  · intro hx
    obtain ⟨hpB5, ⟨bWF, bPU, bWU, bDec, bPE, bNoCE⟩, hdisj⟩ := pWF hx
    refine ⟨hpB5, ⟨bWF, bPU, bWU, bDec, bPE,
      forall_update (Q := fun p => p ≠ CarPc.checkEmpty) s.pc i .unlockBoard
        (by decide) bNoCE⟩, ?_⟩
    rcases hdisj with ⟨hpF, _⟩ | ⟨hpF1, hc5, hnoCF⟩
    · refine Or.inr ⟨by dsimp only; omega, hc, ?_⟩
      dsimp only
      intro j
      rcases eq_or_ne j i with rfl | hj
      · rw [Function.update_same]
        decide
      · rw [Function.update_noteq hj]
        intro hj2
        exact unique_cs s mx i (by rw [hpc]; rfl) j hj (by rw [hj2]; rfl)
    · exact absurd hpc (hnoCF i)
  · intro hx
    obtain ⟨cPB, cWB, cInc, cWF, cPF, cPU, cWU, cDec, cPE, cAll⟩ := pC2 hx
    rcases cAll i with hh | hh <;> rw [hpc] at hh <;> exact CarPc.noConfusion hh
  · intro hx
    obtain ⟨cPB, cWB, cInc, cWF, cPF, cPU, cWU, cDec, cPE, cAll⟩ := pCr hx
    rcases cAll i with hh | hh <;> rw [hpc] at hh <;> exact CarPc.noConfusion hh
  · intro k hx
    obtain ⟨hk5, hpU, hpE, uPB, uWB, uInc, uWF, uPF, uNoCF⟩ := pPU k hx
    exact absurd hpc (uNoCF i)
  · intro hx
    obtain ⟨hpU5, ⟨uPB, uWB, uInc, uWF, uPF, uNoCF⟩, hdisj⟩ := pWEm hx
    exact absurd hpc (uNoCF i)
  · intro hx
    rcases pDn hx with ht | hcr
    · obtain ⟨tPB, tWB, tInc, tWF, tPF, tPU, tWU, tDec, tPE, tAll⟩ := ht
      rcases tAll i with hh | hh | hh | hh <;> rw [hpc] at hh <;> exact CarPc.noConfusion hh
    · obtain ⟨cPB, cWB, cInc, cWF, cPF, cPU, cWU, cDec, cPE, cAll⟩ := hcr
      rcases cAll i with hh | hh <;> rw [hpc] at hh <;> exact CarPc.noConfusion hh

lemma inv_carFullSkip (s : St) (i : Fin 5) (h : SimInv s)
    (hpc : s.pc i = .checkFull) (hc : s.count ≠ 5) :
    SimInv { s with pc := Function.update s.pc i .unlockBoard } := by
  obtain ⟨lB, lF, lU, lE, gB, gI, gU, gC, mx, ph⟩ := h
  obtain ⟨pTop, pPB, pWF, pC2, pCr, pPU, pWEm, pDn⟩ := ph
  have eI := cnt_update s.pc i .unlockBoard preInc
  have eA := cnt_update s.pc i .unlockBoard aboard
  have eD := cnt_update s.pc i .unlockBoard preDec
  rw [hpc] at eI eA eD
  simp [preInc, aboard, preDec] at eI eA eD
  refine ⟨lB, lF, lU, lE, by dsimp only; omega, by dsimp only; omega,
    by dsimp only; omega, gC,
    mx_update_same s.pc s.owner i .unlockBoard mx (by rw [hpc]; rfl),
    ?_, ?_, ?_, ?_, ?_, ?_, ?_, ?_⟩
  · intro hx
    obtain ⟨tPB, tWB, tInc, tWF, tPF, tPU, tWU, tDec, tPE, tAll⟩ := pTop hx
    rcases tAll i with hh | hh | hh | hh <;> rw [hpc] at hh <;> exact CarPc.noConfusion hh
  · intro k hx
    obtain ⟨hk5, hpB, hpF, bWF, bPU, bWU, bDec, bPE, bNoCE⟩ := pPB k hx
    exact ⟨hk5, hpB, hpF, bWF, bPU, bWU, bDec, bPE,
      forall_update (Q := fun p => p ≠ CarPc.checkEmpty) s.pc i .unlockBoard
        (by decide) bNoCE⟩
  · intro hx
    obtain ⟨hpB5, ⟨bWF, bPU, bWU, bDec, bPE, bNoCE⟩, hdisj⟩ := pWF hx
    refine ⟨hpB5, ⟨bWF, bPU, bWU, bDec, bPE,
      forall_update (Q := fun p => p ≠ CarPc.checkEmpty) s.pc i .unlockBoard
        (by decide) bNoCE⟩, ?_⟩
    rcases hdisj with ⟨hpF, _⟩ | ⟨hpF1, hc5, hnoCF⟩
    · exact Or.inl ⟨hpF, fun hcc => absurd hcc hc⟩
    · exact absurd hpc (hnoCF i)
  · intro hx
    obtain ⟨cPB, cWB, cInc, cWF, cPF, cPU, cWU, cDec, cPE, cAll⟩ := pC2 hx
    rcases cAll i with hh | hh <;> rw [hpc] at hh <;> exact CarPc.noConfusion hh
  · intro hx
    obtain ⟨cPB, cWB, cInc, cWF, cPF, cPU, cWU, cDec, cPE, cAll⟩ := pCr hx
    rcases cAll i with hh | hh <;> rw [hpc] at hh <;> exact CarPc.noConfusion hh
  · intro k hx
    obtain ⟨hk5, hpU, hpE, uPB, uWB, uInc, uWF, uPF, uNoCF⟩ := pPU k hx
    exact absurd hpc (uNoCF i)
  · intro hx
    obtain ⟨hpU5, ⟨uPB, uWB, uInc, uWF, uPF, uNoCF⟩, hdisj⟩ := pWEm hx
    exact absurd hpc (uNoCF i)
  · intro hx
    rcases pDn hx with ht | hcr
    · obtain ⟨tPB, tWB, tInc, tWF, tPF, tPU, tWU, tDec, tPE, tAll⟩ := ht
      rcases tAll i with hh | hh | hh | hh <;> rw [hpc] at hh <;> exact CarPc.noConfusion hh
    · obtain ⟨cPB, cWB, cInc, cWF, cPF, cPU, cWU, cDec, cPE, cAll⟩ := hcr
      rcases cAll i with hh | hh <;> rw [hpc] at hh <;> exact CarPc.noConfusion hh

lemma inv_carUnboardPermit (s : St) (i : Fin 5) (h : SimInv s)
    (hpc : s.pc i = .waitUnboard) (hu : 0 < s.unboard) :
    SimInv { s with pc := Function.update s.pc i .leaveSleep,
                    unboard := s.unboard - 1, wU := s.wU + 1 } := by
  obtain ⟨lB, lF, lU, lE, gB, gI, gU, gC, mx, ph⟩ := h
  obtain ⟨pTop, pPB, pWF, pC2, pCr, pPU, pWEm, pDn⟩ := ph
  have eI := cnt_update s.pc i .leaveSleep preInc
  have eA := cnt_update s.pc i .leaveSleep aboard
  have eD := cnt_update s.pc i .leaveSleep preDec
  rw [hpc] at eI eA eD
  simp [preInc, aboard, preDec] at eI eA eD
  refine ⟨lB, lF, by dsimp only; omega, lE, by dsimp only; omega,
    by dsimp only; omega, by dsimp only; omega, gC,
    mx_update_same s.pc s.owner i .leaveSleep mx (by rw [hpc]; rfl),
    ?_, ?_, ?_, ?_, ?_, ?_, ?_, ?_⟩
  · intro hx
    obtain ⟨tPB, tWB, tInc, tWF, tPF, tPU, tWU, tDec, tPE, tAll⟩ := pTop hx
    exact absurd hu (by omega)
  · intro k hx
    obtain ⟨hk5, hpB, hpF, bWF, bPU, bWU, bDec, bPE, bNoCE⟩ := pPB k hx
    exact absurd hu (by omega)
  · intro hx
    obtain ⟨hpB5, ⟨bWF, bPU, bWU, bDec, bPE, bNoCE⟩, hdisj⟩ := pWF hx
    exact absurd hu (by omega)
  · intro hx
    obtain ⟨cPB, cWB, cInc, cWF, cPF, cPU, cWU, cDec, cPE, cAll⟩ := pC2 hx
    exact absurd hu (by omega)
  · intro hx
    obtain ⟨cPB, cWB, cInc, cWF, cPF, cPU, cWU, cDec, cPE, cAll⟩ := pCr hx
    exact absurd hu (by omega)
  · intro k hx
    obtain ⟨hk5, hpU, hpE, uPB, uWB, uInc, uWF, uPF, uNoCF⟩ := pPU k hx
    exact ⟨hk5, hpU, hpE, uPB, uWB, uInc, uWF, uPF,
      forall_update (Q := fun p => p ≠ CarPc.checkFull) s.pc i .leaveSleep
        (by decide) uNoCF⟩
  · intro hx
    obtain ⟨hpU5, ⟨uPB, uWB, uInc, uWF, uPF, uNoCF⟩, hdisj⟩ := pWEm hx
    exact ⟨hpU5, ⟨uPB, uWB, uInc, uWF, uPF,
      forall_update (Q := fun p => p ≠ CarPc.checkFull) s.pc i .leaveSleep
        (by decide) uNoCF⟩,
      disjE_update s i .leaveSleep (by decide) (by rw [hpc]; decide) hdisj⟩
  · intro hx
    rcases pDn hx with ht | hcr
    · obtain ⟨tPB, tWB, tInc, tWF, tPF, tPU, tWU, tDec, tPE, tAll⟩ := ht
      exact absurd hu (by omega)
    · obtain ⟨cPB, cWB, cInc, cWF, cPF, cPU, cWU, cDec, cPE, cAll⟩ := hcr
      exact absurd hu (by omega)

lemma inv_carDec (s : St) (i : Fin 5) (h : SimInv s) (hpc : s.pc i = .decCount) :
    SimInv { s with pc := Function.update s.pc i .checkEmpty,
                    count := s.count - 1, dec := s.dec + 1 } := by
  obtain ⟨lB, lF, lU, lE, gB, gI, gU, gC, mx, ph⟩ := h
  obtain ⟨pTop, pPB, pWF, pC2, pCr, pPU, pWEm, pDn⟩ := ph
  have eI := cnt_update s.pc i .checkEmpty preInc
  have eA := cnt_update s.pc i .checkEmpty aboard
  have eD := cnt_update s.pc i .checkEmpty preDec
  rw [hpc] at eI eA eD
  simp [preInc, aboard, preDec] at eI eA eD
  refine ⟨lB, lF, lU, lE, by dsimp only; omega, by dsimp only; omega,
    by dsimp only; omega, by dsimp only; push_cast; omega,
    mx_update_same s.pc s.owner i .checkEmpty mx (by rw [hpc]; rfl),
    ?_, ?_, ?_, ?_, ?_, ?_, ?_, ?_⟩
  · intro hx
    obtain ⟨tPB, tWB, tInc, tWF, tPF, tPU, tWU, tDec, tPE, tAll⟩ := pTop hx
    rcases tAll i with hh | hh | hh | hh <;> rw [hpc] at hh <;> exact CarPc.noConfusion hh
  · intro k hx
    obtain ⟨hk5, hpB, hpF, bWF, bPU, bWU, bDec, bPE, bNoCE⟩ := pPB k hx
    exfalso
    have h0 : cnt s.pc preDec = 0 := by omega
    have := (cnt_eq_zero_iff s.pc preDec).mp h0 i
    rw [hpc] at this
    exact absurd this (by decide)
  · intro hx
    obtain ⟨hpB5, ⟨bWF, bPU, bWU, bDec, bPE, bNoCE⟩, hdisj⟩ := pWF hx
    exfalso
    have h0 : cnt s.pc preDec = 0 := by omega
    have := (cnt_eq_zero_iff s.pc preDec).mp h0 i
    rw [hpc] at this
    exact absurd this (by decide)
  · intro hx
    obtain ⟨cPB, cWB, cInc, cWF, cPF, cPU, cWU, cDec, cPE, cAll⟩ := pC2 hx
    rcases cAll i with hh | hh <;> rw [hpc] at hh <;> exact CarPc.noConfusion hh
  · intro hx
    obtain ⟨cPB, cWB, cInc, cWF, cPF, cPU, cWU, cDec, cPE, cAll⟩ := pCr hx
    rcases cAll i with hh | hh <;> rw [hpc] at hh <;> exact CarPc.noConfusion hh
  · intro k hx
    obtain ⟨hk5, hpU, hpE, uPB, uWB, uInc, uWF, uPF, uNoCF⟩ := pPU k hx
    exact ⟨hk5, hpU, hpE, uPB, uWB, uInc, uWF, uPF,
      forall_update (Q := fun p => p ≠ CarPc.checkFull) s.pc i .checkEmpty
        (by decide) uNoCF⟩
  · intro hx
    obtain ⟨hpU5, ⟨uPB, uWB, uInc, uWF, uPF, uNoCF⟩, hdisj⟩ := pWEm hx
    refine ⟨hpU5, ⟨uPB, uWB, uInc, uWF, uPF,
      forall_update (Q := fun p => p ≠ CarPc.checkFull) s.pc i .checkEmpty
        (by decide) uNoCF⟩, ?_⟩
    rcases hdisj with ⟨hpE, _⟩ | ⟨hpE1, hc0, _⟩
    · refine Or.inl ⟨hpE, fun _ => ⟨i, ?_⟩⟩
      dsimp only
      rw [Function.update_same]
    · exfalso
      have hone : 1 ≤ cnt s.pc preDec :=
        one_le_cnt s.pc preDec i (by rw [hpc]; rfl)
      omega
  · intro hx
    rcases pDn hx with ht | hcr
    · obtain ⟨tPB, tWB, tInc, tWF, tPF, tPU, tWU, tDec, tPE, tAll⟩ := ht
      rcases tAll i with hh | hh | hh | hh <;> rw [hpc] at hh <;> exact CarPc.noConfusion hh
    · obtain ⟨cPB, cWB, cInc, cWF, cPF, cPU, cWU, cDec, cPE, cAll⟩ := hcr
      rcases cAll i with hh | hh <;> rw [hpc] at hh <;> exact CarPc.noConfusion hh

lemma inv_carEmptyPost (s : St) (i : Fin 5) (h : SimInv s)
    (hpc : s.pc i = .checkEmpty) (hc : s.count = 0) :
    SimInv { s with pc := Function.update s.pc i .unlockUnboard,
                    empty := s.empty + 1, pE := s.pE + 1 } := by
  obtain ⟨lB, lF, lU, lE, gB, gI, gU, gC, mx, ph⟩ := h
  obtain ⟨pTop, pPB, pWF, pC2, pCr, pPU, pWEm, pDn⟩ := ph
  have eI := cnt_update s.pc i .unlockUnboard preInc
  have eA := cnt_update s.pc i .unlockUnboard aboard
  have eD := cnt_update s.pc i .unlockUnboard preDec
  rw [hpc] at eI eA eD
  simp [preInc, aboard, preDec] at eI eA eD
  refine ⟨lB, lF, lU, by dsimp only; omega, by dsimp only; omega,
    by dsimp only; omega, by dsimp only; omega, gC,
    mx_update_same s.pc s.owner i .unlockUnboard mx (by rw [hpc]; rfl),
    ?_, ?_, ?_, ?_, ?_, ?_, ?_, ?_⟩
  · intro hx
    obtain ⟨tPB, tWB, tInc, tWF, tPF, tPU, tWU, tDec, tPE, tAll⟩ := pTop hx
    rcases tAll i with hh | hh | hh | hh <;> rw [hpc] at hh <;> exact CarPc.noConfusion hh
  · intro k hx
    obtain ⟨hk5, hpB, hpF, bWF, bPU, bWU, bDec, bPE, bNoCE⟩ := pPB k hx
    exact absurd hpc (bNoCE i)
  · intro hx
    obtain ⟨hpB5, ⟨bWF, bPU, bWU, bDec, bPE, bNoCE⟩, hdisj⟩ := pWF hx
    exact absurd hpc (bNoCE i)
  · intro hx
    obtain ⟨cPB, cWB, cInc, cWF, cPF, cPU, cWU, cDec, cPE, cAll⟩ := pC2 hx
    rcases cAll i with hh | hh <;> rw [hpc] at hh <;> exact CarPc.noConfusion hh
  · intro hx
    obtain ⟨cPB, cWB, cInc, cWF, cPF, cPU, cWU, cDec, cPE, cAll⟩ := pCr hx
    rcases cAll i with hh | hh <;> rw [hpc] at hh <;> exact CarPc.noConfusion hh
  · intro k hx
    obtain ⟨hk5, hpU, hpE, uPB, uWB, uInc, uWF, uPF, uNoCF⟩ := pPU k hx
    exact absurd hc (by omega)
  · intro hx
    obtain ⟨hpU5, ⟨uPB, uWB, uInc, uWF, uPF, uNoCF⟩, hdisj⟩ := pWEm hx
    refine ⟨hpU5, ⟨uPB, uWB, uInc, uWF, uPF,
      forall_update (Q := fun p => p ≠ CarPc.checkFull) s.pc i .unlockUnboard
        (by decide) uNoCF⟩, ?_⟩
    rcases hdisj with ⟨hpE, _⟩ | ⟨hpE1, hc0, hnoCE⟩
    · refine Or.inr ⟨by dsimp only; omega, hc, ?_⟩
      dsimp only
      intro j
      rcases eq_or_ne j i with rfl | hj
      · rw [Function.update_same]
        decide
      · rw [Function.update_noteq hj]
        intro hj2
        exact unique_cs s mx i (by rw [hpc]; rfl) j hj (by rw [hj2]; rfl)
    · exact absurd hpc (hnoCE i)
  · intro hx
    rcases pDn hx with ht | hcr
    · obtain ⟨tPB, tWB, tInc, tWF, tPF, tPU, tWU, tDec, tPE, tAll⟩ := ht
      rcases tAll i with hh | hh | hh | hh <;> rw [hpc] at hh <;> exact CarPc.noConfusion hh
    · obtain ⟨cPB, cWB, cInc, cWF, cPF, cPU, cWU, cDec, cPE, cAll⟩ := hcr
      rcases cAll i with hh | hh <;> rw [hpc] at hh <;> exact CarPc.noConfusion hh

lemma inv_carEmptySkip (s : St) (i : Fin 5) (h : SimInv s)
    (hpc : s.pc i = .checkEmpty) (hc : s.count ≠ 0) :
    SimInv { s with pc := Function.update s.pc i .unlockUnboard } := by
  obtain ⟨lB, lF, lU, lE, gB, gI, gU, gC, mx, ph⟩ := h
  obtain ⟨pTop, pPB, pWF, pC2, pCr, pPU, pWEm, pDn⟩ := ph
  have eI := cnt_update s.pc i .unlockUnboard preInc
  have eA := cnt_update s.pc i .unlockUnboard aboard
  have eD := cnt_update s.pc i .unlockUnboard preDec
  rw [hpc] at eI eA eD
  simp [preInc, aboard, preDec] at eI eA eD
  refine ⟨lB, lF, lU, lE, by dsimp only; omega, by dsimp only; omega,
    by dsimp only; omega, gC,
    mx_update_same s.pc s.owner i .unlockUnboard mx (by rw [hpc]; rfl),
    ?_, ?_, ?_, ?_, ?_, ?_, ?_, ?_⟩
  · intro hx
    obtain ⟨tPB, tWB, tInc, tWF, tPF, tPU, tWU, tDec, tPE, tAll⟩ := pTop hx
    rcases tAll i with hh | hh | hh | hh <;> rw [hpc] at hh <;> exact CarPc.noConfusion hh
  · intro k hx
    obtain ⟨hk5, hpB, hpF, bWF, bPU, bWU, bDec, bPE, bNoCE⟩ := pPB k hx
    exact absurd hpc (bNoCE i)
  · intro hx
    obtain ⟨hpB5, ⟨bWF, bPU, bWU, bDec, bPE, bNoCE⟩, hdisj⟩ := pWF hx
    exact absurd hpc (bNoCE i)
  · intro hx
    obtain ⟨cPB, cWB, cInc, cWF, cPF, cPU, cWU, cDec, cPE, cAll⟩ := pC2 hx
    rcases cAll i with hh | hh <;> rw [hpc] at hh <;> exact CarPc.noConfusion hh
  · intro hx
    obtain ⟨cPB, cWB, cInc, cWF, cPF, cPU, cWU, cDec, cPE, cAll⟩ := pCr hx
    rcases cAll i with hh | hh <;> rw [hpc] at hh <;> exact CarPc.noConfusion hh
  · intro k hx
    obtain ⟨hk5, hpU, hpE, uPB, uWB, uInc, uWF, uPF, uNoCF⟩ := pPU k hx
    exact ⟨hk5, hpU, hpE, uPB, uWB, uInc, uWF, uPF,
      forall_update (Q := fun p => p ≠ CarPc.checkFull) s.pc i .unlockUnboard
        (by decide) uNoCF⟩
  · intro hx
    obtain ⟨hpU5, ⟨uPB, uWB, uInc, uWF, uPF, uNoCF⟩, hdisj⟩ := pWEm hx
    refine ⟨hpU5, ⟨uPB, uWB, uInc, uWF, uPF,
      forall_update (Q := fun p => p ≠ CarPc.checkFull) s.pc i .unlockUnboard
        (by decide) uNoCF⟩, ?_⟩
    rcases hdisj with ⟨hpE, _⟩ | ⟨hpE1, hc0, hnoCE⟩
    · exact Or.inl ⟨hpE, fun hcc => absurd hcc hc⟩
    · exact absurd hpc (hnoCE i)
  · intro hx
    rcases pDn hx with ht | hcr
    · obtain ⟨tPB, tWB, tInc, tWF, tPF, tPU, tWU, tDec, tPE, tAll⟩ := ht
      rcases tAll i with hh | hh | hh | hh <;> rw [hpc] at hh <;> exact CarPc.noConfusion hh
    · obtain ⟨cPB, cWB, cInc, cWF, cPF, cPU, cWU, cDec, cPE, cAll⟩ := hcr
      rcases cAll i with hh | hh <;> rw [hpc] at hh <;> exact CarPc.noConfusion hh

lemma inv_step {s s' : St} (h : SimInv s) : Step s s' → SimInv s'
  | .tick _ _ => inv_tick s h
  | .ferryStopTop _ hf _ => inv_ferryStopTop s h hf
  | .ferryStartBoarding _ hf _ => inv_ferryStartBoarding s h hf
  | .ferryPostBoard _ i hf hi => inv_ferryPostBoard s i h hf hi
  | .ferryPostBoardLast _ i hf hi => inv_ferryPostBoardLast s i h hf hi
  | .ferryFullWait _ hf hfull => inv_ferryFullWait s h hf hfull
  | .ferryStopCheck2 _ hf _ => inv_ferryStopCheck2 s h hf
  | .ferryDepart _ hf _ => inv_ferryDepart s h hf
  | .ferryArrive _ hf => inv_ferryArrive s h hf
  | .ferryPostUnboard _ i hf hi => inv_ferryPostUnboard s i h hf hi
  | .ferryPostUnboardLast _ i hf hi => inv_ferryPostUnboardLast s i h hf hi
  | .ferryEmptyWait _ hf he => inv_ferryEmptyWait s h hf he
  | .carStop _ i hpc _ => inv_carStop s i h hpc
  | .carStart _ i hpc _ => inv_carStart s i h hpc
  | .carBoardPermit _ i hpc hb => inv_carBoardPermit s i h hpc hb
  | .carLockB _ i hpc ho => inv_carLockB s i h hpc ho
  | .carSleepB _ i hpc => inv_carSleepB s i h hpc
  | .carInc _ i hpc => inv_carInc s i h hpc
  | .carFullPost _ i hpc hc => inv_carFullPost s i h hpc hc
  | .carFullSkip _ i hpc hc => inv_carFullSkip s i h hpc hc
  | .carUnlockB _ i hpc => inv_carUnlockB s i h hpc
  | .carUnboardPermit _ i hpc hu => inv_carUnboardPermit s i h hpc hu
  | .carLeave _ i hpc => inv_carLeave s i h hpc
  | .carLockU _ i hpc ho => inv_carLockU s i h hpc ho
  | .carDec _ i hpc => inv_carDec s i h hpc
  | .carEmptyPost _ i hpc hc => inv_carEmptyPost s i h hpc hc
  | .carEmptySkip _ i hpc hc => inv_carEmptySkip s i h hpc hc
  | .carUnlockU _ i hpc => inv_carUnlockU s i h hpc

/-- Every reachable state satisfies the global invariant. -/
lemma inv_reach (s : St) (hs : Reach s) : SimInv s := by
  induction hs with
  | refl => exact inv_init
  | step _ st ih => exact inv_step ih st

/-- Seven scheduler decisions that take car i through the whole boarding
sequence: loop check, sem_wait(sem_board), lock, usleep, increment, capacity
check, unlock. -/
def boardActs (i : Fin 5) : List Act :=
  [.car i, .car i, .car i, .car i, .car i, .car i, .car i]

/-- Six scheduler decisions that take car i through the whole unboarding
sequence: sem_wait(sem_unboard), usleep and log, lock, decrement, empty
check, unlock. -/
def unboardActs (i : Fin 5) : List Act :=
  [.car i, .car i, .car i, .car i, .car i, .car i]

/-- Schedule reaching a state where car 0 holds the mutex and is inside
the usleep of the boarding critical section. -/
def schedLock : List Act := [.fer, .fer, .car 0, .car 0, .car 0]

/-- Schedule reaching the state just after the ferry consumed sem_full:
all five cars boarded, ferry at the second stop-condition check. -/
def schedC2 : List Act :=
  [.fer, .fer, .fer, .fer, .fer, .fer] ++ boardActs 0 ++ boardActs 1 ++
    boardActs 2 ++ boardActs 3 ++ boardActs 4 ++ [.fer]

/-- Schedule reaching the CROSSING phase. -/
def schedCross : List Act := schedC2 ++ [.fer]

/-- Schedule reaching a state in the unboarding phase where car 0 has
consumed an unboard permit and is about to log that it left. -/
def schedLeave : List Act := schedCross ++ [.fer, .fer, .car 0]

/-- Schedule running one complete ferry cycle, back to the top of the
ferry loop with one cycle recorded. -/
def schedCycle : List Act :=
  schedCross ++ [.fer, .fer, .fer, .fer, .fer, .fer] ++ unboardActs 0 ++
    unboardActs 1 ++ unboardActs 2 ++ unboardActs 3 ++ unboardActs 4 ++ [.fer]

def stLock : St := (runList initSt schedLock).getD initSt

def stC2 : St := (runList initSt schedC2).getD initSt

def stCross : St := (runList initSt schedCross).getD initSt

def stLeave : St := (runList initSt schedLeave).getD initSt

def stLeave2 : St := (runList initSt (schedLeave ++ [.car 0])).getD initSt

def stCycle : St := (runList initSt schedCycle).getD initSt

lemma reach_stLock : Reach stLock :=
  reach_runList initSt stLock schedLock Reach.refl rfl

lemma reach_stC2 : Reach stC2 :=
  reach_runList initSt stC2 schedC2 Reach.refl rfl

lemma reach_stCross : Reach stCross :=
  reach_runList initSt stCross schedCross Reach.refl rfl

lemma reach_stLeave : Reach stLeave :=
  reach_runList initSt stLeave schedLeave Reach.refl rfl

lemma reach_stCycle : Reach stCycle :=
  reach_runList initSt stCycle schedCycle Reach.refl rfl

lemma step_c2_cross : Step stC2 stCross :=
  runAct_sound stC2 stCross .fer rfl

lemma step_leave : Step stLeave stLeave2 :=
  runAct_sound stLeave stLeave2 (.car 0) rfl

lemma step_pF_lt {s s' : St} (st : Step s s') (hlt : s.pF < s'.pF) :
    s.count = 5 ∧ ∃ i, s.pc i = CarPc.checkFull := by
  cases st
  case carFullPost i hpc hc => exact ⟨hc, i, hpc⟩
  all_goals exact absurd hlt (lt_irrefl s.pF)

lemma step_pE_lt {s s' : St} (st : Step s s') (hlt : s.pE < s'.pE) :
    s.count = 0 ∧ ∃ i, s.pc i = CarPc.checkEmpty := by
  cases st
  case carEmptyPost i hpc hc => exact ⟨hc, i, hpc⟩
  all_goals exact absurd hlt (lt_irrefl s.pE)

lemma step_into_lockUnboard {s s' : St} (i : Fin 5) (st : Step s s')
    (h1 : s.pc i ≠ CarPc.lockUnboard) (h2 : s'.pc i = CarPc.lockUnboard) :
    s.pc i = CarPc.leaveSleep := by
  cases st
  case carLeave j hpc =>
    rcases eq_or_ne i j with rfl | hij
    · exact hpc
    · dsimp only at h2
      rw [Function.update_noteq hij] at h2
      exact absurd h2 h1
  all_goals first
    | exact absurd h2 h1
    | (dsimp only at h2
       rw [Function.update_apply] at h2
       split at h2
       · exact CarPc.noConfusion h2
       · exact absurd h2 h1)

/-- Claim C1: in every reachable state of the simulation the shared counter
cars_on_board satisfies 0 <= cars_on_board <= 5 = FERRY_CAPACITY; no
interleaving of the car threads, gated by the board and unboard permits,
drives it below 0 or above the capacity. -/
theorem capacity_invariant (s : St) (hs : Reach s) :
    0 ≤ s.count ∧ s.count ≤ (FERRY_CAPACITY : Int) := by
  obtain ⟨lB, lF, lU, lE, gB, gI, gU, gC, mx, ph⟩ := inv_reach s hs
  have hdisj : cnt s.pc aboard + cnt s.pc preDec ≤ 5 :=
    cnt_disjoint s.pc aboard preDec (fun p => by cases p <;> decide)
  unfold FERRY_CAPACITY
  omega

/-- Witness for C1 at a concrete reachable state in the CROSSING phase. -/
theorem capacity_invariant_witness :
    0 ≤ stCross.count ∧ stCross.count ≤ (FERRY_CAPACITY : Int) :=
  capacity_invariant stCross reach_stCross

/-- Claim C2: sem_full and sem_empty are each posted exactly once per
cycle.  In every reachable state the pending-post count of each of the two
signal semaphores is at most one and equals total posts minus the posts the
ferry has consumed (the ferry consumes exactly one per cycle); moreover any
transition that posts sem_full is taken by the unique mutex-holding car
that observes cars_on_board = 5 at its capacity check, and any transition
that posts sem_empty by the unique mutex-holding car that observes
cars_on_board = 0 after its decrement. -/
theorem single_trigger_invariant (s : St) (hs : Reach s) :
    s.full ≤ 1 ∧ s.empty ≤ 1 ∧ s.pF = s.wF + s.full ∧ s.pE = s.wE + s.empty ∧
    (∀ s', Step s s' → s.pF < s'.pF →
      s.count = 5 ∧ ∃ i, s.owner = some i ∧ s.pc i = CarPc.checkFull) ∧
    (∀ s', Step s s' → s.pE < s'.pE →
      s.count = 0 ∧ ∃ i, s.owner = some i ∧ s.pc i = CarPc.checkEmpty) := by
  obtain ⟨lB, lF, lU, lE, gB, gI, gU, gC, mx, ph⟩ := inv_reach s hs
  obtain ⟨pTop, pPB, pWF, pC2, pCr, pPU, pWEm, pDn⟩ := ph
  have hbounds : s.full ≤ 1 ∧ s.empty ≤ 1 := by
    rcases hferry : s.ferry with _ | i | _ | _ | _ | i | _ | _
    · obtain ⟨tPB, tWB, tInc, tWF, tPF, tPU, tWU, tDec, tPE, tAll⟩ := pTop hferry
      omega
    · obtain ⟨hk5, hpB, hpF, bWF, bPU, bWU, bDec, bPE, bNoCE⟩ := pPB i hferry
      omega
    · obtain ⟨hpB5, ⟨bWF, bPU, bWU, bDec, bPE, bNoCE⟩, hdisj⟩ := pWF hferry
      rcases hdisj with ⟨hpF, _⟩ | ⟨hpF1, _, _⟩ <;> omega
    · obtain ⟨cPB, cWB, cInc, cWF, cPF, cPU, cWU, cDec, cPE, cAll⟩ := pC2 hferry
      omega
    · obtain ⟨cPB, cWB, cInc, cWF, cPF, cPU, cWU, cDec, cPE, cAll⟩ := pCr hferry
      omega
    · obtain ⟨hk5, hpU, hpE, uPB, uWB, uInc, uWF, uPF, uNoCF⟩ := pPU i hferry
      omega
    · obtain ⟨hpU5, ⟨uPB, uWB, uInc, uWF, uPF, uNoCF⟩, hdisj⟩ := pWEm hferry
      rcases hdisj with ⟨hpE, _⟩ | ⟨hpE1, _, _⟩ <;> omega
    · rcases pDn hferry with ht | hcr
      · obtain ⟨tPB, tWB, tInc, tWF, tPF, tPU, tWU, tDec, tPE, tAll⟩ := ht
        omega
      · obtain ⟨cPB, cWB, cInc, cWF, cPF, cPU, cWU, cDec, cPE, cAll⟩ := hcr
        omega
  refine ⟨hbounds.1, hbounds.2, lF, lE, ?_, ?_⟩
  · intro s' st hlt
    obtain ⟨hc, i, hpc⟩ := step_pF_lt st hlt
    exact ⟨hc, i, (mx i).mp (by rw [hpc]; rfl), hpc⟩
  · intro s' st hlt
    obtain ⟨hc, i, hpc⟩ := step_pE_lt st hlt
    exact ⟨hc, i, (mx i).mp (by rw [hpc]; rfl), hpc⟩

/-- Witness for C2 at a concrete reachable state. -/
theorem single_trigger_invariant_witness : stCross.full ≤ 1 ∧ stCross.empty ≤ 1 :=
  ⟨(single_trigger_invariant stCross reach_stCross).1,
   (single_trigger_invariant stCross reach_stCross).2.1⟩

/-- Claim C3: the ferry never is in the CROSSING phase (the departure log
and the transit sleep) with fewer than 5 cars aboard: in every reachable
state whose ferry location is the crossing, cars_on_board = 5. -/
theorem no_premature_departure (s : St) (hs : Reach s)
    (hf : s.ferry = FerryPc.crossing) : s.count = 5 := by
  obtain ⟨lB, lF, lU, lE, gB, gI, gU, gC, mx, ph⟩ := inv_reach s hs
  obtain ⟨cPB, cWB, cInc, cWF, cPF, cPU, cWU, cDec, cPE, cAll⟩ := ph.2.2.2.2.1 hf
  omega

/-- Witness for C3: a concrete reachable crossing state. -/
theorem no_premature_departure_witness : stCross.count = 5 :=
  no_premature_departure stCross reach_stCross rfl

/-- Counterexample to claim C4 as stated: the boarding critical section of
the car thread performs a timed pause (usleep, ferry_cross.c line 127)
while holding car_count_mutex.  The state stLock is reachable, car 0 holds
the mutex there, and its program counter is the in-mutex usleep location. -/
theorem mutex_pause_counterexample :
    ¬ (∀ s : St, Reach s → ∀ i : Fin 5,
        s.owner = some i → s.pc i ≠ CarPc.boardSleep) :=
  fun hcl => hcl stLock reach_stLock 0 rfl rfl

/-- Claim C4 as amended: every acquisition of car_count_mutex covers only
locations of the two critical sections (so the holder is never blocked on a
semaphore wait or a mutex acquisition); however the boarding critical
section contains, besides the increment and the capacity check, a timed
pause (usleep 10-50ms) before the increment. -/
theorem mutex_no_blocking_wait (s : St) (hs : Reach s) (i : Fin 5)
    (ho : s.owner = some i) :
    inCS (s.pc i) = true ∧ s.pc i ≠ CarPc.waitBoard ∧
    s.pc i ≠ CarPc.waitUnboard ∧ s.pc i ≠ CarPc.lockBoard ∧
    s.pc i ≠ CarPc.lockUnboard := by
  have hcs : inCS (s.pc i) = true := ((inv_reach s hs).mx i).mpr ho
  refine ⟨hcs, ?_, ?_, ?_, ?_⟩ <;>
    (intro he; rw [he] at hcs; exact absurd hcs (by decide))

/-- Witness for the amended C4 at the reachable state stLock. -/
theorem mutex_no_blocking_wait_witness : inCS (stLock.pc 0) = true :=
  (mutex_no_blocking_wait stLock reach_stLock 0 rfl).1

/-- Claim C5: round-trip conservation.  Whenever the ferry is back at the
top of its loop, the cumulative number of boarding registrations
(increments) and of unboarding registrations (decrements) both equal
5 * (completed cycles); each full cycle therefore contributes exactly 5
boardings and 5 unboardings. -/
theorem round_trip_conservation (s : St) (hs : Reach s)
    (hf : s.ferry = FerryPc.top) :
    s.inc = 5 * s.wE ∧ s.dec = 5 * s.wE := by
  obtain ⟨lB, lF, lU, lE, gB, gI, gU, gC, mx, ph⟩ := inv_reach s hs
  obtain ⟨tPB, tWB, tInc, tWF, tPF, tPU, tWU, tDec, tPE, tAll⟩ := ph.1 hf
  exact ⟨tInc, tDec⟩

/-- Witness for C5 after one complete concrete cycle (stCycle.wE = 1,
stCycle.inc = stCycle.dec = 5). -/
theorem round_trip_conservation_witness :
    stCycle.inc = 5 * stCycle.wE ∧ stCycle.dec = 5 * stCycle.wE :=
  round_trip_conservation stCycle reach_stCycle rfl

/-- Setup outcome in which the sem_open for sem_board succeeds but the
other three sem_open calls fail, and all thread creations succeed. -/
def onlyBoardSemOk : SetupResults := ⟨true, false, false, false, true, fun _ => true⟩

/-- Setup outcome in which the sem_open for sem_board itself fails. -/
def boardSemFailed : SetupResults := ⟨false, true, true, true, true, fun _ => true⟩

/-- Claim C6 (code bug): with sem_board succeeding but sem_full (and the
other two) failing, the setup of main does not abort and, absent a crash,
the process exits 0 - the claim (and the spec) say any semaphore creation
failure is a fatal non-zero abort.  Only a sem_board failure or a
pthread_create failure aborts the setup. -/
theorem setup_failure_unchecked :
    setupAborts onlyBoardSemOk = false ∧
    mainExitCode onlyBoardSemOk = 0 ∧
    setupAborts boardSemFailed = true ∧
    mainExitCode boardSemFailed = 1 ∧
    (∀ r : SetupResults, mainExitCode r = 0 ↔
      (r.semBoardOk = true ∧ r.ferryOk = true ∧ ∀ i, r.carOk i = true)) := by
  refine ⟨rfl, rfl, rfl, rfl, ?_⟩
  intro r
  unfold mainExitCode setupAborts
  rcases hb : r.semBoardOk <;> rcases hf : r.ferryOk <;>
    simp [hb, hf, List.all_eq_true]

/-- Claim C7: a car that received unboard permission logs that it left
(during the physical-unboarding pause) strictly before acquiring the
mutual-exclusion region for its decrement: the lock-acquisition location
lockUnboard is only ever entered from the logging location leaveSleep; and
the decrement and the zero-check are executed with the mutex continuously
held by that car. -/
theorem left_event_before_decrement (s s' : St) (i : Fin 5) (hs : Reach s)
    (st : Step s s') :
    (s.pc i ≠ CarPc.lockUnboard → s'.pc i = CarPc.lockUnboard →
      s.pc i = CarPc.leaveSleep) ∧
    ((s.pc i = CarPc.decCount ∨ s.pc i = CarPc.checkEmpty) → s.owner = some i) := by
  constructor
  · exact fun h1 h2 => step_into_lockUnboard i st h1 h2
  · intro hd
    have hmx := (inv_reach s hs).mx i
    rcases hd with he | he <;> exact hmx.mp (by rw [he]; rfl)

/-- Witness for C7 at a concrete transition: car 0 moves from the leaving
log to the lock-acquisition location. -/
theorem left_event_before_decrement_witness : stLeave.pc 0 = CarPc.leaveSleep :=
  (left_event_before_decrement stLeave stLeave2 0 reach_stLeave step_leave).1
    (by decide) (by decide)

/-- Claim C8: the CROSSING phase is entered only from the stop-condition
check that follows the sem_full wait, and only when the run duration has
not yet elapsed; a boarding phase is started only from the stop-condition
check at the top of the ferry loop, and only when the run duration has not
yet elapsed.  Hence no crossing and no new cycle starts after time is up. -/
theorem stop_checks_guard_crossing (s s' : St) (st : Step s s') :
    (s'.ferry = FerryPc.crossing →
      s.ferry = FerryPc.crossing ∨ (s.ferry = FerryPc.check2 ∧ s.timeUp = false)) ∧
    (s'.ferry = FerryPc.postBoard 0 →
      s.ferry = FerryPc.postBoard 0 ∨ (s.ferry = FerryPc.top ∧ s.timeUp = false)) := by
  cases st
  case ferryDepart hf ht =>
    exact ⟨fun _ => Or.inr ⟨hf, ht⟩, fun hx => FerryPc.noConfusion hx⟩
  case ferryStartBoarding hf ht =>
    exact ⟨fun hx => FerryPc.noConfusion hx, fun _ => Or.inr ⟨hf, ht⟩⟩
  case ferryPostBoard i hf hi =>
    refine ⟨fun hx => FerryPc.noConfusion hx, fun hx => ?_⟩
    dsimp only at hx
    injection hx with hx2
    exact absurd hx2 (by omega)
  all_goals first
    | exact ⟨fun hx => Or.inl hx, fun hx => Or.inl hx⟩
    | exact ⟨fun hx => FerryPc.noConfusion hx, fun hx => FerryPc.noConfusion hx⟩

/-- Witness for C8 at the concrete departure transition out of stC2. -/
theorem stop_checks_guard_crossing_witness :
    stC2.ferry = FerryPc.check2 ∧ stC2.timeUp = false :=
  ((stop_checks_guard_crossing stC2 stCross step_c2_cross).1 rfl).resolve_left
    (by decide)

/-- Claim C9: all four semaphores are created with initial value 0, and in
every reachable state the number of completed waits on each semaphore never
exceeds the number of posts; in particular no car completes a board-permit
acquisition before the first open_boarding posts (pB = 0 forces wB = 0),
and the ferry cannot have returned from await_full before a car posted
sem_full. -/
theorem semaphores_start_at_zero (s : St) (hs : Reach s) :
    initSt.board = 0 ∧ initSt.full = 0 ∧ initSt.unboard = 0 ∧ initSt.empty = 0 ∧
    s.wB ≤ s.pB ∧ s.wF ≤ s.pF ∧ s.wU ≤ s.pU ∧ s.wE ≤ s.pE ∧
    (s.pB = 0 → s.wB = 0) ∧ (s.pF = 0 → s.wF = 0) := by
  obtain ⟨lB, lF, lU, lE, gB, gI, gU, gC, mx, ph⟩ := inv_reach s hs
  exact ⟨rfl, rfl, rfl, rfl, by omega, by omega, by omega, by omega,
    by omega, by omega⟩

/-- Witness for C9 at a concrete reachable state. -/
theorem semaphores_start_at_zero_witness : stCross.wF ≤ stCross.pF :=
  (semaphores_start_at_zero stCross reach_stCross).2.2.2.2.2.1

/-- Claim C10: behaviour of the event logger print_status.  A call whose
timestamp exceeds PROGRAM_RUNTIME prints nothing unless the id is the
sentinel -99; ids -99 and -1 print in the Ferry/system format, every other
id prints in the Car format carrying the id; consequently no Car-format
line and no non-sentinel Ferry line ever carries a timestamp greater than
the run duration. -/
theorem print_status_spec (t : ℚ) (m : String) (id : Int) :
    (t > PROGRAM_RUNTIME → id ≠ -99 → print_status t m id = none) ∧
    (id = -99 → print_status t m id = some (.ferryLine t m)) ∧
    (id = -1 → t ≤ PROGRAM_RUNTIME → print_status t m id = some (.ferryLine t m)) ∧
    (id ≠ -99 → id ≠ -1 → t ≤ PROGRAM_RUNTIME →
      print_status t m id = some (.carLine t id m)) ∧
    (∀ t2 i2 m2, print_status t m id = some (.carLine t2 i2 m2) →
      t2 ≤ PROGRAM_RUNTIME) ∧
    (∀ t2 m2, print_status t m id = some (.ferryLine t2 m2) →
      id = -99 ∨ t2 ≤ PROGRAM_RUNTIME) := by
  unfold print_status
  by_cases h1 : t > PROGRAM_RUNTIME ∧ id ≠ -99
  · rw [if_pos h1]
    exact ⟨fun _ _ => rfl, fun h99 => absurd h99 h1.2,
      fun _ ht => absurd h1.1 (not_lt.mpr ht),
      fun _ _ ht => absurd h1.1 (not_lt.mpr ht),
      fun t2 i2 m2 hx => Option.noConfusion hx,
      fun t2 m2 hx => Option.noConfusion hx⟩
  · rw [if_neg h1]
    push_neg at h1
    by_cases h2 : id = -1 ∨ id = -99
    · rw [if_pos h2]
      refine ⟨fun hgt hne => absurd (h1 hgt) hne, fun _ => rfl, fun _ _ => rfl,
        fun h99 hm1 _ => (h2.elim (fun hh => absurd hh hm1) fun hh => absurd hh h99),
        fun t2 i2 m2 hx => LogLine.noConfusion (Option.some.inj hx),
        fun t2 m2 hx => ?_⟩
      have ht2 : t = t2 := by
        have := Option.some.inj hx
        injection this with ha hb
      rcases eq_or_ne id (-99) with h99 | h99
      · exact Or.inl h99
      · refine Or.inr ?_
        rw [← ht2]
        by_contra hgt
        exact h99 (h1 (not_le.mp hgt))
    · rw [if_neg h2]
      push_neg at h2
      refine ⟨fun hgt _ => absurd (h1 hgt) h2.2, fun h99 => absurd h99 h2.2,
        fun hm1 _ => absurd hm1 h2.1, fun _ _ _ => rfl,
        fun t2 i2 m2 hx => ?_, fun t2 m2 hx => LogLine.noConfusion (Option.some.inj hx)⟩
      have hinj := Option.some.inj hx
      have ht2 : t = t2 := by injection hinj
      rw [← ht2]
      by_contra hgt
      exact h2.2 (h1 (not_le.mp hgt))

/-- Witness for C10: a car event past the deadline is suppressed, a ferry
event before the deadline prints in the Ferry format. -/
theorem print_status_spec_witness :
    print_status 61 "left the ferry" 3 = none ∧
    print_status 30 "leaves the dock" (-1) =
      some (.ferryLine 30 "leaves the dock") :=
  ⟨(print_status_spec 61 "left the ferry" 3).1
      (by norm_num [PROGRAM_RUNTIME]) (by decide),
   (print_status_spec 30 "leaves the dock" (-1)).2.2.1 rfl
      (by norm_num [PROGRAM_RUNTIME])⟩
